import Mathlib

/-!
Shallow embedding of the Transactor ledger core (`src/ledger.rs` and
`src/ledger/balance.rs`).

Monetary amounts are embedded as exact rationals `ℚ`: the reference stores
them as 64-bit floats, but the specification (§9) states that the intent is
exact decimal accounting and that the floating-point representation is
incidental; every concrete input used below is exactly representable.

Hash maps (`client_tx_to_idx`, `balance`, `holds`) are embedded as
association lists; the code only ever inserts a key after checking it is
absent, so list insertion at the head coincides with hash-map insertion,
and removal is key-filtering.  `Vec<Entry>` is a `List Entry`.

The Rust methods mutate `&mut self` in place and propagate errors with `?`,
so a failure inside `Ledger::process_transaction` keeps every mutation that
already happened.  The embedding therefore returns the resulting state
together with an optional error: `processTransaction : Ledger → Transaction
→ Ledger × Option Ledger.Error`, where the first component is the state
after the call whether or not an error was returned.  The two
`.expect(...)` panics in the Rust source are modelled by the dedicated
error value `Ledger.Error.PanicMissingEntry`.
-/

/-- `u16` client identifier (`pub type Client = u16`); never used
arithmetically, so embedded as `ℕ`. -/
abbrev Client := ℕ

/-- `u32` transaction identifier (`pub type Tx = u32`); never used
arithmetically, so embedded as `ℕ`. -/
abbrev Tx := ℕ

/-- `enum Transaction` from `src/ledger.rs`. -/
inductive Transaction : Type where
  | Deposit (client : Client) (tx : Tx) (amount : ℚ)
  | Withdrawal (client : Client) (tx : Tx) (amount : ℚ)
  | Dispute (client : Client) (tx : Tx)
  | Resolve (client : Client) (tx : Tx)
  | ChargeBack (client : Client) (tx : Tx)
deriving DecidableEq

/-- `Transaction::client`. -/
def Transaction.client : Transaction → Client
  | .Deposit c _ _ => c
  | .Withdrawal c _ _ => c
  | .Dispute c _ => c
  | .Resolve c _ => c
  | .ChargeBack c _ => c

/-- `Transaction::tx`. -/
def Transaction.tx : Transaction → Tx
  | .Deposit _ x _ => x
  | .Withdrawal _ x _ => x
  | .Dispute _ x => x
  | .Resolve _ x => x
  | .ChargeBack _ x => x

/-- `Transaction::is_deposit`. -/
def Transaction.isDeposit : Transaction → Bool
  | .Deposit .. => true
  | _ => false

/-- `matches!(t, Deposit{..} | Withdrawal{..})`, used twice in
`process_transaction`. -/
def Transaction.isDW : Transaction → Bool
  | .Deposit .. => true
  | .Withdrawal .. => true
  | _ => false

/-- `Transaction::key`. -/
def Transaction.key (t : Transaction) : Client × Tx := (t.client, t.tx)

/-- `enum TxStatus` from `src/ledger.rs`. -/
inductive TxStatus : Type where
  | Active
  | Disputed
  | Resolved
  | ChargedBack
deriving DecidableEq

/-- `balance::Error` from `src/ledger/balance.rs`. -/
inductive Balance.Error : Type where
  | InsufficientFunds
  | AccountLocked
  | MultiHoldError (tx : Tx)
  | NoHoldError (tx : Tx)
deriving DecidableEq

/-- `ledger::Error` from `src/ledger.rs`, plus `PanicMissingEntry`
modelling the two `.expect(...)` panics (shown unreachable from reachable
states). -/
inductive Ledger.Error : Type where
  | DuplicateTransaction (tx : Tx)
  | MissingTransaction (tx : Tx)
  | NoInitialDeposit (client : Client)
  | UnexpectedTxStatus (s : TxStatus)
  | FrozenAccountError (client : Client)
  | BalanceError (e : Balance.Error)
  | PanicMissingEntry
deriving DecidableEq

/-- Association-list lookup, first match (keys are inserted only when
absent, so this agrees with `HashMap::get`). -/
def lookupA {α β : Type} [DecidableEq α] : List (α × β) → α → Option β
  | [], _ => none
  | p :: ps, k => if p.1 = k then some p.2 else lookupA ps k

/-- Overwrite the value stored at an existing key (`HashMap` value update
through `get_mut`). -/
def setA {α β : Type} [DecidableEq α] (m : List (α × β)) (k : α) (v : β) :
    List (α × β) :=
  m.map fun p => if p.1 = k then (k, v) else p

/-- `HashMap::remove`. -/
def eraseA {α β : Type} [DecidableEq α] (m : List (α × β)) (k : α) :
    List (α × β) :=
  m.filter fun p => p.1 ≠ k

/-- `struct Balance` from `src/ledger/balance.rs`. -/
structure Balance : Type where
  client : Client
  total : ℚ
  holds : List (Tx × ℚ)
  locked : Bool
deriving DecidableEq

/-- `Balance::new`. -/
def Balance.new (client : Client) : Balance :=
  { client := client, total := 0, holds := [], locked := false }

/-- The loop body of `Balance::held`: sum of the positive hold values. -/
def Balance.heldOf : List (Tx × ℚ) → ℚ
  | [] => 0
  | p :: ps => if 0 < p.2 then p.2 + Balance.heldOf ps else Balance.heldOf ps

/-- `Balance::held`. -/
def Balance.held (b : Balance) : ℚ := Balance.heldOf b.holds

/-- `Balance::available`. -/
def Balance.available (b : Balance) : ℚ := b.total - b.held

/-- `Balance::lock_balance`. -/
def Balance.lockBalance (b : Balance) : Balance := { b with locked := true }

/-- `Balance::deposit`. -/
def Balance.deposit (b : Balance) (amount : ℚ) :
    Except Balance.Error Balance :=
  if b.locked then .error .AccountLocked
  else .ok { b with total := b.total + amount }

/-- `Balance::withdraw`. -/
def Balance.withdraw (b : Balance) (amount : ℚ) :
    Except Balance.Error Balance :=
  if b.total < amount then .error .InsufficientFunds
  else if b.locked then .error .AccountLocked
  else .ok { b with total := b.total - amount }

/-- `Balance::hold`. -/
def Balance.hold (b : Balance) (tx : Tx) (amount : ℚ) :
    Except Balance.Error Balance :=
  if (lookupA b.holds tx).isSome then .error (.MultiHoldError tx)
  else .ok { b with holds := (tx, amount) :: b.holds }

/-- `Balance::remove_hold`. -/
def Balance.removeHold (b : Balance) (tx : Tx) :
    Except Balance.Error Balance :=
  if (lookupA b.holds tx).isSome then
    .ok { b with holds := eraseA b.holds tx }
  else .error (.NoHoldError tx)

/-- `Balance::apply_hold`. -/
def Balance.applyHold (b : Balance) (tx : Tx) :
    Except Balance.Error Balance :=
  match lookupA b.holds tx with
  | none => .error (.NoHoldError tx)
  | some v => .ok { b with total := b.total - v, holds := eraseA b.holds tx }

/-- `struct Entry` from `src/ledger.rs`. -/
structure Entry : Type where
  t : Transaction
  status : TxStatus
deriving DecidableEq

/-- `Entry::new`. -/
def Entry.new (t : Transaction) : Entry := { t := t, status := .Active }

/-- `Entry::dispute`. -/
def Entry.dispute (e : Entry) : Except Ledger.Error Entry :=
  if e.status ≠ .Active then .error (.UnexpectedTxStatus e.status)
  else .ok { e with status := .Disputed }

/-- `Entry::resolve`. -/
def Entry.resolve (e : Entry) : Except Ledger.Error Entry :=
  if e.status ≠ .Disputed then .error (.UnexpectedTxStatus e.status)
  else .ok { e with status := .Resolved }

/-- `Entry::charge_back`. -/
def Entry.chargeBack (e : Entry) : Except Ledger.Error Entry :=
  if e.status ≠ .Disputed then .error (.UnexpectedTxStatus e.status)
  else .ok { e with status := .ChargedBack }

/-- `struct Ledger` from `src/ledger.rs`. -/
structure Ledger : Type where
  client_tx_to_idx : List ((Client × Tx) × ℕ)
  balance : List (Client × Balance)
  transactions : List Entry
deriving DecidableEq

/-- `Ledger::new`. -/
def Ledger.new : Ledger :=
  { client_tx_to_idx := [], balance := [], transactions := [] }

/-- The trailing registration block of `process_transaction`: record the
new index for `(client, tx)` and push the entry. -/
def Ledger.registerEntry (l : Ledger) (t : Transaction) : Ledger :=
  { l with
    client_tx_to_idx := (t.key, l.transactions.length) :: l.client_tx_to_idx,
    transactions := l.transactions ++ [Entry.new t] }

/-- Write back a mutated balance for a client already present in the map
(the Rust code mutates it through `get_mut`). -/
def Ledger.setBalance (l : Ledger) (c : Client) (b : Balance) : Ledger :=
  { l with balance := setA l.balance c b }

/-- `Ledger::process_transaction`.  Returns the state after the call and
the error, if any; mutations that happened before a failure are kept,
exactly as with `&mut self` and `?` in the source. -/
def Ledger.processTransaction (l : Ledger) (t : Transaction) :
    Ledger × Option Ledger.Error :=
  let key := t.key
  if t.isDW && (lookupA l.client_tx_to_idx key).isSome then
    (l, some (.DuplicateTransaction t.tx))
  else if !t.isDeposit && (lookupA l.balance t.client).isNone then
    (l, some (.NoInitialDeposit t.client))
  else
    let l1 : Ledger :=
      if (lookupA l.balance t.client).isNone then
        { l with balance := (t.client, Balance.new t.client) :: l.balance }
      else l
    match lookupA l1.balance t.client with
    | none => (l1, some .PanicMissingEntry)
    | some b =>
      if b.locked then (l1, some (.FrozenAccountError t.client))
      else
        match t with
        | .Deposit _ _ amount =>
          match b.deposit amount with
          | .error e => (l1, some (.BalanceError e))
          | .ok b2 => ((l1.setBalance t.client b2).registerEntry t, none)
        | .Withdrawal _ _ amount =>
          match b.withdraw amount with
          | .error e => (l1, some (.BalanceError e))
          | .ok b2 => ((l1.setBalance t.client b2).registerEntry t, none)
        | .Dispute _ tx =>
          match lookupA l1.client_tx_to_idx key with
          | none => (l1, some (.MissingTransaction tx))
          | some idx =>
            match l1.transactions[idx]? with
            | none => (l1, some .PanicMissingEntry)
            | some entry =>
              match entry.dispute with
              | .error e => (l1, some e)
              | .ok entry2 =>
                let l2 : Ledger :=
                  { l1 with transactions := l1.transactions.set idx entry2 }
                match entry.t with
                | .Deposit _ _ amount =>
                  match b.hold tx amount with
                  | .error e => (l2, some (.BalanceError e))
                  | .ok b2 => (l2.setBalance t.client b2, none)
                | .Withdrawal _ _ amount =>
                  match b.hold tx (-amount) with
                  | .error e => (l2, some (.BalanceError e))
                  | .ok b2 => (l2.setBalance t.client b2, none)
                | _ => (l2, none)
        | .Resolve _ tx =>
          match lookupA l1.client_tx_to_idx key with
          | none => (l1, some (.MissingTransaction tx))
          | some idx =>
            match l1.transactions[idx]? with
            | none => (l1, some .PanicMissingEntry)
            | some entry =>
              match entry.resolve with
              | .error e => (l1, some e)
              | .ok entry2 =>
                let l2 : Ledger :=
                  { l1 with transactions := l1.transactions.set idx entry2 }
                match b.removeHold tx with
                | .error e => (l2, some (.BalanceError e))
                | .ok b2 => (l2.setBalance t.client b2, none)
        | .ChargeBack _ tx =>
          match lookupA l1.client_tx_to_idx key with
          | none => (l1, some (.MissingTransaction tx))
          | some idx =>
            match l1.transactions[idx]? with
            | none => (l1, some .PanicMissingEntry)
            | some entry =>
              match entry.chargeBack with
              | .error e => (l1, some e)
              | .ok entry2 =>
                let l2 : Ledger :=
                  { l1 with transactions := l1.transactions.set idx entry2 }
                match b.applyHold tx with
                | .error e => (l2, some (.BalanceError e))
                | .ok b2 =>
                  (l2.setBalance t.client b2.lockBalance, none)

/-- `Ledger::get_available_balance`. -/
def Ledger.getAvailableBalance (l : Ledger) (client : Client) : Option ℚ :=
  match lookupA l.balance client with
  | some b => some b.available
  | none => none

/-- Fold a list of transactions through the ledger, keeping the state of
every call (the driver loop in `main.rs` feeds transactions one at a time
and ignores per-transaction failures). -/
def Ledger.processAll (l : Ledger) (ts : List Transaction) : Ledger :=
  ts.foldl (fun l t => (Ledger.processTransaction l t).1) l

/-- States reachable from the empty ledger by submitting any sequence of
transactions (failed submissions keep the state of the failed call, which
is where the partial-mutation question lives). -/
inductive Ledger.Reachable : Ledger → Prop where
  | empty : Ledger.Reachable Ledger.new
  | step {l : Ledger} (t : Transaction) :
      Ledger.Reachable l → Ledger.Reachable (Ledger.processTransaction l t).1

/-- The hold amount `process_transaction` records when the stored entry is
disputed: the amount for a deposit, the negated amount for a withdrawal,
and nothing for the three entry kinds that are never stored. -/
def holdAmount : Transaction → Option ℚ
  | .Deposit _ _ a => some a
  | .Withdrawal _ _ a => some (-a)
  | _ => none

/-- The well-formedness invariant of a ledger state, maintained by
`process_transaction` from the empty ledger: the index and the history are
inverse to each other, every stored entry is a deposit or withdrawal, and
a hold with value `v` is registered in a client's balance exactly for the
disputed entries of that client, `v` being the entry's hold amount. -/
structure Ledger.Inv (l : Ledger) : Prop where
  idx_entry : ∀ (k : Client × Tx) (i : ℕ), lookupA l.client_tx_to_idx k = some i →
    ∃ (e : Entry), l.transactions[i]? = some e ∧ e.t.key = k
  entry_idx : ∀ (i : ℕ) (e : Entry), l.transactions[i]? = some e →
    lookupA l.client_tx_to_idx e.t.key = some i
  entry_dw : ∀ (i : ℕ) (e : Entry), l.transactions[i]? = some e →
    (holdAmount e.t).isSome = true
  holds_entry : ∀ (c : Client) (b : Balance) (x : Tx) (v : ℚ),
    lookupA l.balance c = some b →
    lookupA b.holds x = some v →
    ∃ (i : ℕ) (e : Entry), lookupA l.client_tx_to_idx (c, x) = some i ∧
      l.transactions[i]? = some e ∧ e.status = .Disputed ∧
      holdAmount e.t = some v
  entry_holds : ∀ (i : ℕ) (e : Entry), l.transactions[i]? = some e →
    e.status = .Disputed →
    ∃ (b : Balance) (v : ℚ), lookupA l.balance e.t.client = some b ∧
      lookupA b.holds e.t.tx = some v ∧ holdAmount e.t = some v

/-- Errors that `process_transaction` can actually return from a
well-formed state: everything except the three Balance errors whose
guarding checks are always performed first (`AccountLocked`,
`MultiHoldError`, `NoHoldError`) and the modelled panics. -/
def goodErr : Ledger.Error → Prop
  | .BalanceError .AccountLocked => False
  | .BalanceError (.MultiHoldError _) => False
  | .BalanceError (.NoHoldError _) => False
  | .PanicMissingEntry => False
  | _ => True

/-- What one `process_transaction` call guarantees from a well-formed
state: a failure leaves the state unchanged, only reachable errors are
returned, and the result is well-formed again. -/
def StepOK (l : Ledger) (r : Ledger × Option Ledger.Error) : Prop :=
  (r.2 = none ∨ r.1 = l) ∧ (∀ e, r.2 = some e → goodErr e) ∧ Ledger.Inv r.1

/-- Transactions in the spec's input domain that open no dispute: amounts
are non-negative and the transaction is not a Dispute (used for the
amended second half of C3). -/
def benignTx : Transaction → Prop
  | .Deposit _ _ a => 0 ≤ a
  | .Withdrawal _ _ a => 0 ≤ a
  | .Dispute _ _ => False
  | _ => True

theorem lookupA_nil {α β : Type} [DecidableEq α] (k : α) :
    lookupA ([] : List (α × β)) k = none := rfl

theorem lookupA_cons {α β : Type} [DecidableEq α] (p : α × β)
    (ps : List (α × β)) (k : α) :
    lookupA (p :: ps) k = if p.1 = k then some p.2 else lookupA ps k := rfl

theorem lookupA_setA {α β : Type} [DecidableEq α] (m : List (α × β))
    (k k' : α) (v : β) :
    lookupA (setA m k v) k' =
      if k' = k then (lookupA m k).map (fun _ => v) else lookupA m k' := by
  induction m with
  | nil => simp [setA, lookupA]
  | cons p ps ih =>
    simp only [setA, List.map_cons] at ih ⊢
    rcases eq_or_ne p.1 k with hpk | hpk
    · rcases eq_or_ne k' k with hk | hk
      · subst hk; simp [lookupA, hpk, ih]
      · have hkk : k ≠ k' := fun h => hk h.symm
        simp [lookupA, hpk, hkk, hk, ih]
    · rcases eq_or_ne k' k with hk | hk
      · subst hk
        simp [lookupA, hpk, ih]
      · simp [lookupA, hpk, hk, ih]

theorem lookupA_eraseA {α β : Type} [DecidableEq α] (m : List (α × β))
    (k k' : α) :
    lookupA (eraseA m k) k' =
      if k' = k then none else lookupA m k' := by
  induction m with
  | nil => simp [eraseA, lookupA]
  | cons p ps ih =>
    rcases eq_or_ne p.1 k with hpk | hpk
    · have hdrop : eraseA (p :: ps) k = eraseA ps k := by
        simp [eraseA, List.filter_cons, hpk]
      rw [hdrop, ih]
      rcases eq_or_ne k' k with hk | hk
      · simp [hk]
      · have h3 : p.1 ≠ k' := by rw [hpk]; exact fun h => hk h.symm
        simp [hk, lookupA, h3]
    · have hkeep : eraseA (p :: ps) k = p :: eraseA ps k := by
        simp [eraseA, List.filter_cons, hpk]
      rw [hkeep]
      rcases eq_or_ne k' k with hk | hk
      · subst hk
        simp [lookupA, hpk, ih]
      · simp [lookupA, ih, hk]

theorem heldOf_cons (p : Tx × ℚ) (ps : List (Tx × ℚ)) :
    Balance.heldOf (p :: ps) =
      if 0 < p.2 then p.2 + Balance.heldOf ps else Balance.heldOf ps := rfl

theorem inv_empty : Ledger.Inv Ledger.new := by
  refine ⟨?_, ?_, ?_, ?_, ?_⟩ <;> intros <;> simp_all [Ledger.new, lookupA]

theorem Transaction.key_eq (t : Transaction) : t.key = (t.client, t.tx) :=
  rfl

theorem lt_of_getElem?_some {α : Type} {xs : List α} {i : ℕ} {a : α}
    (h : xs[i]? = some a) : i < xs.length := by
  by_contra hlt
  rw [List.getElem?_eq_none (Nat.le_of_not_lt hlt)] at h
  cases h

theorem getElem?_append_of_lt {α : Type} (xs ys : List α) (i : ℕ)
    (h : i < xs.length) : (xs ++ ys)[i]? = xs[i]? := by
  rw [List.getElem?_append]
  exact if_pos h

/-- Inserting a fresh balance for an unknown client (step 2 of
`process_transaction` on a first deposit) preserves the invariant. -/
theorem inv_insert_fresh {l : Ledger} (hI : l.Inv) {c : Client}
    (hc : lookupA l.balance c = none) :
    Ledger.Inv { l with balance := (c, Balance.new c) :: l.balance } := by
  refine ⟨hI.idx_entry, hI.entry_idx, hI.entry_dw, ?_, ?_⟩
  · intro c' b x v hb hx
    rw [lookupA_cons] at hb
    by_cases hcc : c = c'
    · rw [if_pos hcc] at hb
      cases hb
      cases hx
    · rw [if_neg hcc] at hb
      exact hI.holds_entry c' b x v hb hx
  · intro i e he hd
    obtain ⟨b, v, hb, hx, hv⟩ := hI.entry_holds i e he hd
    refine ⟨b, v, ?_, hx, hv⟩
    rw [lookupA_cons]
    have hne : c ≠ e.t.client := by
      rintro rfl
      rw [hc] at hb
      cases hb
    rw [if_neg hne]
    exact hb

/-- Updating the balance of a client without touching its holds map
(deposit and withdrawal write-back) preserves the invariant. -/
theorem inv_setBalance_same_holds {l : Ledger} (hI : l.Inv) {c : Client}
    {b b' : Balance} (hb : lookupA l.balance c = some b)
    (hh : b'.holds = b.holds) :
    Ledger.Inv (l.setBalance c b') := by
  refine ⟨hI.idx_entry, hI.entry_idx, hI.entry_dw, ?_, ?_⟩
  · intro c' b0 x v hb0 hx
    rw [Ledger.setBalance] at hb0
    simp only [lookupA_setA] at hb0
    by_cases hcc : c' = c
    · rw [if_pos hcc, hb] at hb0
      simp only [Option.map_some'] at hb0
      cases hb0
      rw [hh] at hx
      rw [hcc]
      exact hI.holds_entry c b x v hb hx
    · rw [if_neg hcc] at hb0
      exact hI.holds_entry c' b0 x v hb0 hx
  · intro i e he hd
    obtain ⟨b0, v, hb0, hx, hv⟩ := hI.entry_holds i e he hd
    by_cases hcc : e.t.client = c
    · refine ⟨b', v, ?_, ?_, hv⟩
      · rw [Ledger.setBalance]
        simp only [lookupA_setA]
        rw [if_pos hcc, hb]
        rfl
      · rw [hh]
        rw [hcc, hb] at hb0
        cases hb0
        exact hx
    · refine ⟨b0, v, ?_, hx, hv⟩
      rw [Ledger.setBalance]
      simp only [lookupA_setA]
      rw [if_neg hcc]
      exact hb0

/-- Appending a fresh deposit/withdrawal entry and indexing it (the
registration block) preserves the invariant. -/
theorem inv_register {l : Ledger} (hI : l.Inv) {t : Transaction}
    (hnew : lookupA l.client_tx_to_idx t.key = none)
    (hdw : (holdAmount t).isSome = true) :
    Ledger.Inv (l.registerEntry t) := by
  refine ⟨?_, ?_, ?_, ?_, ?_⟩
  · intro k i h
    simp only [Ledger.registerEntry] at h ⊢
    rw [lookupA_cons] at h
    by_cases hk : t.key = k
    · rw [if_pos hk] at h
      cases h
      refine ⟨Entry.new t, ?_, hk⟩
      exact List.getElem?_concat_length _ _
    · rw [if_neg hk] at h
      obtain ⟨e, he, hek⟩ := hI.idx_entry k i h
      refine ⟨e, ?_, hek⟩
      rw [getElem?_append_of_lt _ _ _ (lt_of_getElem?_some he)]
      exact he
  · intro i e he
    simp only [Ledger.registerEntry] at he ⊢
    rw [List.getElem?_append] at he
    split at he
    · have hold := hI.entry_idx i e he
      rw [lookupA_cons]
      have hne : t.key ≠ e.t.key := by
        intro hk
        rw [← hk, hnew] at hold
        cases hold
      rw [if_neg hne]
      exact hold
    · rename_i hge
      have h0 : i - l.transactions.length = 0 := by
        by_contra h0
        rcases Nat.exists_eq_succ_of_ne_zero h0 with ⟨j, hj⟩
        rw [hj] at he
        simp at he
      rw [h0] at he
      simp at he
      have hi : i = l.transactions.length := by omega
      rw [lookupA_cons, ← he, hi]
      simp [Entry.new]
  · intro i e he
    simp only [Ledger.registerEntry] at he
    rw [List.getElem?_append] at he
    split at he
    · exact hI.entry_dw i e he
    · have h0 : i - l.transactions.length = 0 := by
        by_contra h0
        rcases Nat.exists_eq_succ_of_ne_zero h0 with ⟨j, hj⟩
        rw [hj] at he
        simp at he
      rw [h0] at he
      simp at he
      rw [← he]
      exact hdw
  · intro c b x v hb hx
    obtain ⟨i, e, hk, he, hd, hv⟩ := hI.holds_entry c b x v hb hx
    refine ⟨i, e, ?_, ?_, hd, hv⟩
    · simp only [Ledger.registerEntry]
      rw [lookupA_cons]
      have hne : t.key ≠ (c, x) := by
        intro h
        rw [← h, hnew] at hk
        cases hk
      rw [if_neg hne]
      exact hk
    · simp only [Ledger.registerEntry]
      rw [getElem?_append_of_lt _ _ _ (lt_of_getElem?_some he)]
      exact he
  · intro i e he hd
    simp only [Ledger.registerEntry] at he
    rw [List.getElem?_append] at he
    split at he
    · exact hI.entry_holds i e he hd
    · have h0 : i - l.transactions.length = 0 := by
        by_contra h0
        rcases Nat.exists_eq_succ_of_ne_zero h0 with ⟨j, hj⟩
        rw [hj] at he
        simp at he
      rw [h0] at he
      simp at he
      rw [← he] at hd
      cases hd

theorem getElem?_set_of_some {α : Type} {xs : List α} {i j : ℕ} {a : α}
    (b : α) (h : xs[i]? = some a) :
    (xs.set i b)[j]? = if j = i then some b else xs[j]? := by
  by_cases hji : j = i
  · subst hji
    rw [if_pos rfl]
    exact List.getElem?_set_self (lt_of_getElem?_some h)
  · rw [if_neg hji]
    exact List.getElem?_set_ne (fun hh => hji hh.symm)

/-- A successful dispute: the entry at `idx` moves to Disputed and a hold
with the entry's hold amount is recorded in the client's balance.
Preserves the invariant. -/
theorem inv_dispute_success {l : Ledger} (hI : l.Inv) {c : Client} {x : Tx}
    {b : Balance} {idx : ℕ} {entry : Entry} {v : ℚ}
    (hb : lookupA l.balance c = some b)
    (hk : lookupA l.client_tx_to_idx (c, x) = some idx)
    (he : l.transactions[idx]? = some entry)
    (hv : holdAmount entry.t = some v)
    (hnone : lookupA b.holds x = none) :
    Ledger.Inv
      { l with
        transactions := l.transactions.set idx { entry with status := .Disputed },
        balance := setA l.balance c { b with holds := (x, v) :: b.holds } } := by
  have hkey : entry.t.key = (c, x) := by
    obtain ⟨e, he0, kk⟩ := hI.idx_entry (c, x) idx hk
    rw [he] at he0
    cases he0
    exact kk
  refine ⟨?_, ?_, ?_, ?_, ?_⟩
  · intro k i h
    obtain ⟨e, he0, kk⟩ := hI.idx_entry k i h
    rw [getElem?_set_of_some _ he]
    by_cases hii : i = idx
    · subst hii
      rw [he] at he0
      cases he0
      refine ⟨{ entry with status := .Disputed }, ?_, kk⟩
      rw [if_pos rfl]
    · rw [if_neg hii]
      exact ⟨e, he0, kk⟩
  · intro i e' he'
    rw [getElem?_set_of_some _ he] at he'
    by_cases hii : i = idx
    · rw [if_pos hii] at he'
      cases he'
      subst hii
      show lookupA l.client_tx_to_idx entry.t.key = some i
      rw [hkey]
      exact hk
    · rw [if_neg hii] at he'
      exact hI.entry_idx i e' he'
  · intro i e' he'
    rw [getElem?_set_of_some _ he] at he'
    by_cases hii : i = idx
    · rw [if_pos hii] at he'
      cases he'
      exact hI.entry_dw idx entry he
    · rw [if_neg hii] at he'
      exact hI.entry_dw i e' he'
  · intro c' b0 x0 v0 hb0 hx0
    rw [lookupA_setA] at hb0
    by_cases hcc : c' = c
    · rw [if_pos hcc, hb] at hb0
      simp only [Option.map_some'] at hb0
      cases hb0
      rw [hcc]
      rw [lookupA_cons] at hx0
      by_cases hxx : x = x0
      · rw [if_pos hxx] at hx0
        cases hx0
        rw [← hxx]
        refine ⟨idx, { entry with status := .Disputed }, hk, ?_, rfl, hv⟩
        rw [getElem?_set_of_some _ he, if_pos rfl]
      · rw [if_neg hxx] at hx0
        obtain ⟨i, e, hk0, he0, hd0, hv0⟩ := hI.holds_entry c b x0 v0 hb hx0
        have hii : i ≠ idx := by
          intro hii
          subst hii
          obtain ⟨e2, he2, kk2⟩ := hI.idx_entry (c, x0) i hk0
          rw [he] at he2
          cases he2
          rw [hkey] at kk2
          exact hxx (congrArg Prod.snd kk2)
        refine ⟨i, e, hk0, ?_, hd0, hv0⟩
        rw [getElem?_set_of_some _ he, if_neg hii]
        exact he0
    · rw [if_neg hcc] at hb0
      obtain ⟨i, e, hk0, he0, hd0, hv0⟩ := hI.holds_entry c' b0 x0 v0 hb0 hx0
      have hii : i ≠ idx := by
        intro hii
        subst hii
        obtain ⟨e2, he2, kk2⟩ := hI.idx_entry (c', x0) i hk0
        rw [he] at he2
        cases he2
        rw [hkey] at kk2
        exact hcc (congrArg Prod.fst kk2).symm
      refine ⟨i, e, hk0, ?_, hd0, hv0⟩
      rw [getElem?_set_of_some _ he, if_neg hii]
      exact he0
  · intro i e' he' hd'
    rw [getElem?_set_of_some _ he] at he'
    by_cases hii : i = idx
    · rw [if_pos hii] at he'
      cases he'
      have hcl : entry.t.client = c := congrArg Prod.fst hkey
      have htx : entry.t.tx = x := congrArg Prod.snd hkey
      refine ⟨{ b with holds := (x, v) :: b.holds }, v, ?_, ?_, hv⟩
      · show lookupA (setA l.balance c _) entry.t.client = _
        rw [hcl, lookupA_setA, if_pos rfl, hb]
        rfl
      · show lookupA ((x, v) :: b.holds) entry.t.tx = some v
        rw [htx, lookupA_cons, if_pos rfl]
    · rw [if_neg hii] at he'
      obtain ⟨b0, v0, hb0, hx0, hv0⟩ := hI.entry_holds i e' he' hd'
      by_cases hcc : e'.t.client = c
      · rw [hcc, hb] at hb0
        cases hb0
        have hxx : e'.t.tx ≠ x := by
          intro hxx
          rw [hxx, hnone] at hx0
          cases hx0
        refine ⟨{ b with holds := (x, v) :: b.holds }, v0, ?_, ?_, hv0⟩
        · rw [hcc, lookupA_setA, if_pos rfl, hb]
          rfl
        · show lookupA ((x, v) :: b.holds) e'.t.tx = some v0
          rw [lookupA_cons, if_neg (fun h => hxx h.symm)]
          exact hx0
      · refine ⟨b0, v0, ?_, hx0, hv0⟩
        rw [lookupA_setA, if_neg hcc]
        exact hb0

/-- A successful resolve or chargeback: the entry at `idx` leaves the
Disputed state and the matching hold disappears from the client's balance
(`remove_hold` keeps `total`, `apply_hold` also changes `total` and the
chargeback path then locks the balance; none of that is constrained by the
invariant, so one lemma covers both). -/
theorem inv_close_success {l : Ledger} (hI : l.Inv) {c : Client} {x : Tx}
    {b : Balance} {idx : ℕ} {entry : Entry} {s' : TxStatus} {b' : Balance}
    (hb : lookupA l.balance c = some b)
    (hk : lookupA l.client_tx_to_idx (c, x) = some idx)
    (he : l.transactions[idx]? = some entry)
    (hs' : s' ≠ .Disputed)
    (hh : b'.holds = eraseA b.holds x) :
    Ledger.Inv
      { l with
        transactions := l.transactions.set idx { entry with status := s' },
        balance := setA l.balance c b' } := by
  have hkey : entry.t.key = (c, x) := by
    obtain ⟨e, he0, kk⟩ := hI.idx_entry (c, x) idx hk
    rw [he] at he0
    cases he0
    exact kk
  refine ⟨?_, ?_, ?_, ?_, ?_⟩
  · intro k i h
    obtain ⟨e, he0, kk⟩ := hI.idx_entry k i h
    rw [getElem?_set_of_some _ he]
    by_cases hii : i = idx
    · subst hii
      rw [he] at he0
      cases he0
      refine ⟨{ entry with status := s' }, ?_, kk⟩
      rw [if_pos rfl]
    · rw [if_neg hii]
      exact ⟨e, he0, kk⟩
  · intro i e' he'
    rw [getElem?_set_of_some _ he] at he'
    by_cases hii : i = idx
    · rw [if_pos hii] at he'
      cases he'
      subst hii
      show lookupA l.client_tx_to_idx entry.t.key = some i
      rw [hkey]
      exact hk
    · rw [if_neg hii] at he'
      exact hI.entry_idx i e' he'
  · intro i e' he'
    rw [getElem?_set_of_some _ he] at he'
    by_cases hii : i = idx
    · rw [if_pos hii] at he'
      cases he'
      exact hI.entry_dw idx entry he
    · rw [if_neg hii] at he'
      exact hI.entry_dw i e' he'
  · intro c' b0 x0 v0 hb0 hx0
    rw [lookupA_setA] at hb0
    by_cases hcc : c' = c
    · rw [if_pos hcc, hb] at hb0
      simp only [Option.map_some'] at hb0
      cases hb0
      rw [hcc]
      rw [hh, lookupA_eraseA] at hx0
      by_cases hxx : x0 = x
      · rw [if_pos hxx] at hx0
        cases hx0
      · rw [if_neg hxx] at hx0
        obtain ⟨i, e, hk0, he0, hd0, hv0⟩ := hI.holds_entry c b x0 v0 hb hx0
        have hii : i ≠ idx := by
          intro hii
          subst hii
          obtain ⟨e2, he2, kk2⟩ := hI.idx_entry (c, x0) i hk0
          rw [he] at he2
          cases he2
          rw [hkey] at kk2
          exact hxx (congrArg Prod.snd kk2).symm
        refine ⟨i, e, hk0, ?_, hd0, hv0⟩
        rw [getElem?_set_of_some _ he, if_neg hii]
        exact he0
    · rw [if_neg hcc] at hb0
      obtain ⟨i, e, hk0, he0, hd0, hv0⟩ := hI.holds_entry c' b0 x0 v0 hb0 hx0
      have hii : i ≠ idx := by
        intro hii
        subst hii
        obtain ⟨e2, he2, kk2⟩ := hI.idx_entry (c', x0) i hk0
        rw [he] at he2
        cases he2
        rw [hkey] at kk2
        exact hcc (congrArg Prod.fst kk2).symm
      refine ⟨i, e, hk0, ?_, hd0, hv0⟩
      rw [getElem?_set_of_some _ he, if_neg hii]
      exact he0
  · intro i e' he' hd'
    rw [getElem?_set_of_some _ he] at he'
    by_cases hii : i = idx
    · rw [if_pos hii] at he'
      cases he'
      exact absurd hd' hs'
    · rw [if_neg hii] at he'
      obtain ⟨b0, v0, hb0, hx0, hv0⟩ := hI.entry_holds i e' he' hd'
      by_cases hcc : e'.t.client = c
      · rw [hcc, hb] at hb0
        cases hb0
        have hxx : e'.t.tx ≠ x := by
          intro hxx
          have := hI.entry_idx i e' he'
          rw [Transaction.key_eq, hcc, hxx, hk] at this
          cases this
          exact hii rfl
        refine ⟨b', v0, ?_, ?_, hv0⟩
        · rw [hcc, lookupA_setA, if_pos rfl, hb]
          rfl
        · rw [hh, lookupA_eraseA, if_neg hxx]
          exact hx0
      · refine ⟨b0, v0, ?_, hx0, hv0⟩
        rw [lookupA_setA, if_neg hcc]
        exact hb0

theorem Entry.dispute_error {e : Entry} {err : Ledger.Error}
    (h : e.dispute = .error err) :
    err = .UnexpectedTxStatus e.status ∧ e.status ≠ .Active := by
  rw [Entry.dispute] at h
  split at h
  · cases h
    exact ⟨rfl, by assumption⟩
  · cases h

theorem Entry.dispute_ok {e e2 : Entry} (h : e.dispute = .ok e2) :
    e.status = .Active ∧ e2 = { e with status := .Disputed } := by
  rw [Entry.dispute] at h
  split at h
  · cases h
  · cases h
    rename_i hne
    exact ⟨not_not.mp hne, rfl⟩

theorem Entry.resolve_error {e : Entry} {err : Ledger.Error}
    (h : e.resolve = .error err) :
    err = .UnexpectedTxStatus e.status ∧ e.status ≠ .Disputed := by
  rw [Entry.resolve] at h
  split at h
  · cases h
    exact ⟨rfl, by assumption⟩
  · cases h

theorem Entry.resolve_ok {e e2 : Entry} (h : e.resolve = .ok e2) :
    e.status = .Disputed ∧ e2 = { e with status := .Resolved } := by
  rw [Entry.resolve] at h
  split at h
  · cases h
  · cases h
    rename_i hne
    exact ⟨not_not.mp hne, rfl⟩

theorem Entry.chargeBack_error {e : Entry} {err : Ledger.Error}
    (h : e.chargeBack = .error err) :
    err = .UnexpectedTxStatus e.status ∧ e.status ≠ .Disputed := by
  rw [Entry.chargeBack] at h
  split at h
  · cases h
    exact ⟨rfl, by assumption⟩
  · cases h

theorem Entry.chargeBack_ok {e e2 : Entry} (h : e.chargeBack = .ok e2) :
    e.status = .Disputed ∧ e2 = { e with status := .ChargedBack } := by
  rw [Entry.chargeBack] at h
  split at h
  · cases h
  · cases h
    rename_i hne
    exact ⟨not_not.mp hne, rfl⟩

theorem Balance.hold_error {b : Balance} {tx : Tx} {amount : ℚ}
    {err : Balance.Error} (h : b.hold tx amount = .error err) :
    err = .MultiHoldError tx ∧ (lookupA b.holds tx).isSome = true := by
  rw [Balance.hold] at h
  split at h
  · cases h
    exact ⟨rfl, by assumption⟩
  · cases h

theorem Balance.hold_ok {b b2 : Balance} {tx : Tx} {amount : ℚ}
    (h : b.hold tx amount = .ok b2) :
    lookupA b.holds tx = none ∧
      b2 = { b with holds := (tx, amount) :: b.holds } := by
  rw [Balance.hold] at h
  split at h
  · cases h
  · cases h
    rename_i hns
    exact ⟨Option.not_isSome_iff_eq_none.mp (by simpa using hns), rfl⟩

theorem Balance.removeHold_error {b : Balance} {tx : Tx}
    {err : Balance.Error} (h : b.removeHold tx = .error err) :
    err = .NoHoldError tx ∧ lookupA b.holds tx = none := by
  rw [Balance.removeHold] at h
  split at h
  · cases h
  · cases h
    rename_i hns
    exact ⟨rfl, Option.not_isSome_iff_eq_none.mp (by simpa using hns)⟩

theorem Balance.removeHold_ok {b b2 : Balance} {tx : Tx}
    (h : b.removeHold tx = .ok b2) :
    (lookupA b.holds tx).isSome = true ∧
      b2 = { b with holds := eraseA b.holds tx } := by
  rw [Balance.removeHold] at h
  split at h
  · cases h
    exact ⟨by assumption, rfl⟩
  · cases h

theorem Balance.applyHold_error {b : Balance} {tx : Tx}
    {err : Balance.Error} (h : b.applyHold tx = .error err) :
    err = .NoHoldError tx ∧ lookupA b.holds tx = none := by
  rw [Balance.applyHold] at h
  split at h
  · cases h
    exact ⟨rfl, by assumption⟩
  · cases h

theorem Balance.applyHold_ok {b b2 : Balance} {tx : Tx}
    (h : b.applyHold tx = .ok b2) :
    ∃ v, lookupA b.holds tx = some v ∧
      b2 = { b with total := b.total - v, holds := eraseA b.holds tx } := by
  rw [Balance.applyHold] at h
  split at h
  · cases h
  · cases h
    rename_i v hv
    exact ⟨v, hv, rfl⟩

theorem eq_none_of_not_isSome {α : Type} {o : Option α}
    (h : ¬ o.isSome = true) : o = none := by
  cases o
  · rfl
  · simp at h

theorem stepOK_err {l : Ledger} {err : Ledger.Error} (hI : l.Inv)
    (hg : goodErr err) : StepOK l (l, some err) := by
  refine ⟨Or.inr rfl, ?_, hI⟩
  intro e he
  cases he
  exact hg

theorem stepOK_ok {l l' : Ledger} (hJ : l'.Inv) : StepOK l (l', none) := by
  refine ⟨Or.inl rfl, ?_, hJ⟩
  intro e he
  cases he

/-- The main step theorem: from any well-formed ledger state, one
`process_transaction` call fails atomically (the returned state is the
input state on every error), returns only errors `goodErr` allows, and
yields a well-formed state again. -/
theorem step_main {l : Ledger} (hI : l.Inv) (t : Transaction) :
    StepOK l (Ledger.processTransaction l t) := by
  cases t with
  | Deposit c x a =>
    rw [Ledger.processTransaction]
    simp only [Transaction.isDW, Transaction.isDeposit, Transaction.key,
      Transaction.client, Transaction.tx, Bool.true_and, Bool.not_true,
      Bool.false_and, if_false, Bool.false_eq_true]
    split
    · exact stepOK_err hI trivial
    · rename_i hdup
      have hnew : lookupA l.client_tx_to_idx (c, x) = none :=
        eq_none_of_not_isSome hdup
      cases hbal : lookupA l.balance c with
      | some b0 =>
        simp only [hbal, Option.isNone_some, Bool.false_eq_true, if_false]
        cases hlock : b0.locked with
        | true => simp only [if_true]; exact stepOK_err hI trivial
        | false =>
          simp only [Bool.false_eq_true, if_false, Balance.deposit, hlock]
          exact stepOK_ok
            (@inv_register _
              (@inv_setBalance_same_holds _ hI c b0
                { b0 with total := b0.total + a, locked := false } hbal rfl)
              (.Deposit c x a) hnew rfl)
      | none =>
        simp only [hbal, Option.isNone_none, if_true, lookupA_cons, if_pos rfl,
          Balance.new, Bool.false_eq_true, if_false, Balance.deposit]
        have hlook : lookupA ((c, Balance.new c) :: l.balance) c
            = some (Balance.new c) := by
          simp [lookupA_cons]
        exact stepOK_ok
          (@inv_register _
            (@inv_setBalance_same_holds _ (inv_insert_fresh hI hbal) c
              (Balance.new c) { client := c, total := 0 + a, holds := [], locked := false }
              hlook rfl)
            (.Deposit c x a) hnew rfl)
  | Withdrawal c x a =>
    rw [Ledger.processTransaction]
    simp only [Transaction.isDW, Transaction.isDeposit, Transaction.key,
      Transaction.client, Transaction.tx, Bool.true_and, Bool.not_false,
      Bool.false_and, if_false, Bool.false_eq_true]
    split
    · exact stepOK_err hI trivial
    · rename_i hdup
      have hnew : lookupA l.client_tx_to_idx (c, x) = none :=
        eq_none_of_not_isSome hdup
      cases hbal : lookupA l.balance c with
      | none =>
        simp only [hbal, Option.isNone_none, if_true]
        exact stepOK_err hI trivial
      | some b0 =>
        simp only [hbal, Option.isNone_some, Bool.false_eq_true, if_false]
        cases hlock : b0.locked with
        | true => simp only [if_true]; exact stepOK_err hI trivial
        | false =>
          simp only [Bool.false_eq_true, if_false, Balance.withdraw, hlock]
          by_cases hw : b0.total < a
          · simp only [hw, if_true]
            exact stepOK_err hI trivial
          · simp only [hw, if_false]
            exact stepOK_ok
              (@inv_register _
                (@inv_setBalance_same_holds _ hI c b0
                  { b0 with total := b0.total - a, locked := false } hbal rfl)
                (.Withdrawal c x a) hnew rfl)
  | Dispute c x =>
    rw [Ledger.processTransaction]
    simp only [Transaction.isDW, Transaction.isDeposit, Transaction.key,
      Transaction.client, Transaction.tx, Bool.false_and, Bool.not_false,
      Bool.true_and, if_false, Bool.false_eq_true]
    cases hbal : lookupA l.balance c with
    | none =>
      simp only [Option.isNone_none, if_true]
      exact stepOK_err hI trivial
    | some b =>
      simp only [hbal, Option.isNone_some, Bool.false_eq_true, if_false]
      split
      · exact stepOK_err hI trivial
      · split
        · exact stepOK_err hI trivial
        · rename_i hlock idx hk
          split
          · rename_i hnone2
            obtain ⟨e, he2, _⟩ := hI.idx_entry (c, x) idx hk
            rw [hnone2] at he2
            cases he2
          · rename_i entry he
            split
            · rename_i err herr
              obtain ⟨rfl, -⟩ := Entry.dispute_error herr
              exact stepOK_err hI trivial
            · rename_i entry2 hok
              obtain ⟨hst, rfl⟩ := Entry.dispute_ok hok
              split
              · rename_i c2 x2 a2 het
                split
                · rename_i err2 hherr
                  obtain ⟨rfl, hsome⟩ := Balance.hold_error hherr
                  obtain ⟨v, hv⟩ := Option.isSome_iff_exists.mp hsome
                  obtain ⟨i, e, hki, hei, hdi, -⟩ :=
                    hI.holds_entry c b x v hbal hv
                  rw [hk] at hki
                  cases hki
                  rw [he] at hei
                  cases hei
                  rw [hst] at hdi
                  cases hdi
                · rename_i b2 hhok
                  obtain ⟨hhn, rfl⟩ := Balance.hold_ok hhok
                  refine stepOK_ok ?_
                  have hv : holdAmount entry.t = some a2 := by rw [het]; rfl
                  exact inv_dispute_success hI hbal hk he hv hhn
              · rename_i c2 x2 a2 het
                split
                · rename_i err2 hherr
                  obtain ⟨rfl, hsome⟩ := Balance.hold_error hherr
                  obtain ⟨v, hv⟩ := Option.isSome_iff_exists.mp hsome
                  obtain ⟨i, e, hki, hei, hdi, -⟩ :=
                    hI.holds_entry c b x v hbal hv
                  rw [hk] at hki
                  cases hki
                  rw [he] at hei
                  cases hei
                  rw [hst] at hdi
                  cases hdi
                · rename_i b2 hhok
                  obtain ⟨hhn, rfl⟩ := Balance.hold_ok hhok
                  refine stepOK_ok ?_
                  have hv : holdAmount entry.t = some (-a2) := by rw [het]; rfl
                  exact inv_dispute_success hI hbal hk he hv hhn
              · rename_i h1 h2
                have hdw := hI.entry_dw idx entry he
                cases het : entry.t with
                | Deposit c2 x2 a2 => exact absurd het (h1 c2 x2 a2)
                | Withdrawal c2 x2 a2 => exact absurd het (h2 c2 x2 a2)
                | Dispute c2 x2 =>
                  rw [het] at hdw
                  simp [holdAmount] at hdw
                | Resolve c2 x2 =>
                  rw [het] at hdw
                  simp [holdAmount] at hdw
                | ChargeBack c2 x2 =>
                  rw [het] at hdw
                  simp [holdAmount] at hdw
  | Resolve c x =>
    rw [Ledger.processTransaction]
    simp only [Transaction.isDW, Transaction.isDeposit, Transaction.key,
      Transaction.client, Transaction.tx, Bool.false_and, Bool.not_false,
      Bool.true_and, if_false, Bool.false_eq_true]
    cases hbal : lookupA l.balance c with
    | none =>
      simp only [Option.isNone_none, if_true]
      exact stepOK_err hI trivial
    | some b =>
      simp only [hbal, Option.isNone_some, Bool.false_eq_true, if_false]
      split
      · exact stepOK_err hI trivial
      · split
        · exact stepOK_err hI trivial
        · rename_i hlock idx hk
          split
          · rename_i hnone2
            obtain ⟨e, he2, -⟩ := hI.idx_entry (c, x) idx hk
            rw [hnone2] at he2
            cases he2
          · rename_i entry he
            split
            · rename_i err herr
              obtain ⟨rfl, -⟩ := Entry.resolve_error herr
              exact stepOK_err hI trivial
            · rename_i entry2 hok
              obtain ⟨hst, rfl⟩ := Entry.resolve_ok hok
              split
              · rename_i err2 hrr
                obtain ⟨rfl, hrn⟩ := Balance.removeHold_error hrr
                obtain ⟨b0, v, hb0, hx0, -⟩ := hI.entry_holds idx entry he hst
                obtain ⟨e2, he2, kk⟩ := hI.idx_entry (c, x) idx hk
                rw [he] at he2
                cases he2
                have hcl : entry.t.client = c := congrArg Prod.fst kk
                have htx : entry.t.tx = x := congrArg Prod.snd kk
                rw [hcl, hbal] at hb0
                cases hb0
                rw [htx, hrn] at hx0
                cases hx0
              · rename_i b2 hrok
                obtain ⟨-, rfl⟩ := Balance.removeHold_ok hrok
                refine stepOK_ok ?_
                exact inv_close_success hI hbal hk he
                  (fun h => TxStatus.noConfusion h) rfl
  | ChargeBack c x =>
    rw [Ledger.processTransaction]
    simp only [Transaction.isDW, Transaction.isDeposit, Transaction.key,
      Transaction.client, Transaction.tx, Bool.false_and, Bool.not_false,
      Bool.true_and, if_false, Bool.false_eq_true]
    cases hbal : lookupA l.balance c with
    | none =>
      simp only [Option.isNone_none, if_true]
      exact stepOK_err hI trivial
    | some b =>
      simp only [hbal, Option.isNone_some, Bool.false_eq_true, if_false]
      split
      · exact stepOK_err hI trivial
      · split
        · exact stepOK_err hI trivial
        · rename_i hlock idx hk
          split
          · rename_i hnone2
            obtain ⟨e, he2, -⟩ := hI.idx_entry (c, x) idx hk
            rw [hnone2] at he2
            cases he2
          · rename_i entry he
            split
            · rename_i err herr
              obtain ⟨rfl, -⟩ := Entry.chargeBack_error herr
              exact stepOK_err hI trivial
            · rename_i entry2 hok
              obtain ⟨hst, rfl⟩ := Entry.chargeBack_ok hok
              split
              · rename_i err2 har
                obtain ⟨rfl, hrn⟩ := Balance.applyHold_error har
                obtain ⟨b0, v, hb0, hx0, -⟩ := hI.entry_holds idx entry he hst
                obtain ⟨e2, he2, kk⟩ := hI.idx_entry (c, x) idx hk
                rw [he] at he2
                cases he2
                have hcl : entry.t.client = c := congrArg Prod.fst kk
                have htx : entry.t.tx = x := congrArg Prod.snd kk
                rw [hcl, hbal] at hb0
                cases hb0
                rw [htx, hrn] at hx0
                cases hx0
              · rename_i b2 haok
                obtain ⟨v, hv, rfl⟩ := Balance.applyHold_ok haok
                refine stepOK_ok ?_
                exact inv_close_success hI hbal hk he
                  (fun h => TxStatus.noConfusion h) rfl

/-- Every state reachable from the empty ledger is well-formed. -/
theorem inv_of_reachable {l : Ledger} (h : l.Reachable) : l.Inv := by
  induction h with
  | empty => exact inv_empty
  | step t _ ih => exact (step_main ih t).2.2

/-- C2: from every reachable ledger state, a `process_transaction` call
that returns an error leaves the whole ledger state (balances, index and
transaction history) exactly as it was before the call. -/
theorem c2_error_is_atomic {l : Ledger} (h : l.Reachable) (t : Transaction)
    {e : Ledger.Error} (he : (Ledger.processTransaction l t).2 = some e) :
    (Ledger.processTransaction l t).1 = l := by
  rcases (step_main (inv_of_reachable h) t).1 with h1 | h1
  · rw [he] at h1
    cases h1
  · exact h1

theorem c2_witness :
    (Ledger.processTransaction Ledger.new (.Dispute 0 1)).2
        = some (.NoInitialDeposit 0) ∧
    (Ledger.processTransaction Ledger.new (.Dispute 0 1)).1 = Ledger.new :=
  ⟨by decide,
   @c2_error_is_atomic Ledger.new Ledger.Reachable.empty (.Dispute 0 1)
     (.NoInitialDeposit 0) (by decide)⟩

/-- C9: from every reachable ledger state, the error returned by a failing
`process_transaction` call is never `BalanceError(AccountLocked)`,
`BalanceError(MultiHoldError)` or `BalanceError(NoHoldError)`: those
branches of the Balance API are unreachable through the Ledger. -/
theorem c9_no_internal_balance_errors {l : Ledger} (h : l.Reachable)
    (t : Transaction) {e : Ledger.Error}
    (he : (Ledger.processTransaction l t).2 = some e) :
    e ≠ .BalanceError .AccountLocked ∧
    (∀ x, e ≠ .BalanceError (.MultiHoldError x)) ∧
    (∀ x, e ≠ .BalanceError (.NoHoldError x)) := by
  have hg := (step_main (inv_of_reachable h) t).2.1 e he
  refine ⟨?_, ?_, ?_⟩
  · rintro rfl
    exact hg
  · rintro x rfl
    exact hg
  · rintro x rfl
    exact hg

theorem c9_witness :
    (Ledger.processTransaction Ledger.new (.Withdrawal 0 1 5)).2
        = some (.NoInitialDeposit 0) ∧
    ((.NoInitialDeposit 0 : Ledger.Error) ≠ .BalanceError .AccountLocked ∧
     (∀ x, (.NoInitialDeposit 0 : Ledger.Error)
        ≠ .BalanceError (.MultiHoldError x)) ∧
     (∀ x, (.NoInitialDeposit 0 : Ledger.Error)
        ≠ .BalanceError (.NoHoldError x))) :=
  ⟨by decide,
   @c9_no_internal_balance_errors Ledger.new Ledger.Reachable.empty
     (.Withdrawal 0 1 5) (.NoInitialDeposit 0) (by decide)⟩

/-- C1 (amended): once a client's balance is locked, every transaction
naming that client fails and leaves the whole ledger state unchanged; the
error is `FrozenAccountError`, except that a Deposit or Withdrawal whose
`(client, tx)` key is already indexed fails the earlier duplicate check
and reports `DuplicateTransaction` instead. -/
theorem c1_locked_account_rejects_all {l : Ledger} {c : Client}
    {b : Balance} (hb : lookupA l.balance c = some b)
    (hlock : b.locked = true) (t : Transaction) (hc : t.client = c) :
    (Ledger.processTransaction l t).1 = l ∧
    (Ledger.processTransaction l t).2 =
      some (if t.isDW && (lookupA l.client_tx_to_idx t.key).isSome then
              .DuplicateTransaction t.tx
            else .FrozenAccountError c) := by
  subst hc
  rw [Ledger.processTransaction]
  by_cases hdup : (t.isDW && (lookupA l.client_tx_to_idx t.key).isSome) = true
  · simp only [hdup, if_true]
    exact ⟨trivial, trivial⟩
  · simp only [Bool.not_eq_true] at hdup
    simp only [hdup, Bool.false_eq_true, if_false, hb, Option.isNone_some,
      Bool.and_false, hlock, if_true]
    exact ⟨trivial, trivial⟩

/-- C1, counterexample to the claim as stated: after deposit, dispute and
chargeback on `(client 0, tx 1)` the account is locked, yet re-submitting
the deposit with the same `tx` fails with `DuplicateTransaction`, not with
`FrozenAccountError`. -/
theorem c1_counterexample :
    (lookupA (Ledger.processAll Ledger.new
        [.Deposit 0 1 100, .Dispute 0 1, .ChargeBack 0 1]).balance 0).map
        Balance.locked = some true ∧
    (Ledger.processTransaction (Ledger.processAll Ledger.new
        [.Deposit 0 1 100, .Dispute 0 1, .ChargeBack 0 1])
        (.Deposit 0 1 50)).2 = some (.DuplicateTransaction 1) ∧
    some (Ledger.Error.DuplicateTransaction 1)
      ≠ some (Ledger.Error.FrozenAccountError 0) := by
  norm_num [Ledger.processAll, Ledger.processTransaction, Ledger.new,
    Transaction.isDW, Transaction.isDeposit, Transaction.key,
    Transaction.client, Transaction.tx, lookupA, setA, eraseA, Balance.new,
    Balance.deposit, Balance.withdraw, Balance.hold, Balance.removeHold,
    Balance.applyHold, Balance.lockBalance, Entry.dispute, Entry.resolve,
    Entry.chargeBack, Entry.new, Ledger.setBalance, Ledger.registerEntry]
  exact fun h => Ledger.Error.noConfusion h

theorem c1_witness :
    (Ledger.processTransaction (Ledger.processAll Ledger.new
        [.Deposit 0 1 100, .Dispute 0 1, .ChargeBack 0 1])
        (.Dispute 0 2)).1
      = Ledger.processAll Ledger.new
          [.Deposit 0 1 100, .Dispute 0 1, .ChargeBack 0 1] ∧
    (Ledger.processTransaction (Ledger.processAll Ledger.new
        [.Deposit 0 1 100, .Dispute 0 1, .ChargeBack 0 1])
        (.Dispute 0 2)).2 = some (.FrozenAccountError 0) := by
  have h := @c1_locked_account_rejects_all
    (Ledger.processAll Ledger.new
      [.Deposit 0 1 100, .Dispute 0 1, .ChargeBack 0 1])
    0 ⟨0, 0, [], true⟩
    (by norm_num [Ledger.processAll, Ledger.processTransaction, Ledger.new,
      Transaction.isDW, Transaction.isDeposit, Transaction.key,
      Transaction.client, Transaction.tx, lookupA, setA, eraseA, Balance.new,
      Balance.deposit, Balance.withdraw, Balance.hold, Balance.removeHold,
      Balance.applyHold, Balance.lockBalance, Entry.dispute, Entry.resolve,
      Entry.chargeBack, Entry.new, Ledger.setBalance, Ledger.registerEntry])
    rfl (.Dispute 0 2) rfl
  refine ⟨h.1, ?_⟩
  rw [h.2]
  norm_num [Transaction.isDW]

theorem duplicate_rejected (l : Ledger) (t : Transaction) (hdw : t.isDW = true)
    (hdup : (lookupA l.client_tx_to_idx t.key).isSome = true) :
    Ledger.processTransaction l t = (l, some (.DuplicateTransaction t.tx)) := by
  rw [Ledger.processTransaction]
  simp only [hdw, hdup, Bool.and_self, if_true]

theorem deposit_success_registers {l : Ledger} {c : Client} {x : Tx} {a : ℚ}
    (h : (Ledger.processTransaction l (.Deposit c x a)).2 = none) :
    (lookupA (Ledger.processTransaction l (.Deposit c x a)).1.client_tx_to_idx
      (c, x)).isSome = true := by
  revert h
  rw [Ledger.processTransaction]
  simp only [Transaction.isDW, Transaction.isDeposit, Transaction.key,
    Transaction.client, Transaction.tx, Bool.true_and, Bool.not_true,
    Bool.false_and, if_false, Bool.false_eq_true]
  split
  · intro h
    cases h
  · cases hbal : lookupA l.balance c with
    | some b0 =>
      simp only [hbal, Option.isNone_some, Bool.false_eq_true, if_false]
      split
      · intro h
        cases h
      · split
        · intro h
          cases h
        · intro _
          simp [Ledger.registerEntry, Ledger.setBalance, lookupA_cons,
            Transaction.key, Transaction.client, Transaction.tx]
    | none =>
      simp only [hbal, Option.isNone_none, if_true, lookupA_cons, if_pos rfl,
        Balance.new, Bool.false_eq_true, if_false, Balance.deposit]
      intro _
      simp [Ledger.registerEntry, Ledger.setBalance, lookupA_cons,
        Transaction.key, Transaction.client, Transaction.tx]

/-- C8: a Deposit or Withdrawal whose (client, tx) key is already in the
index fails with `DuplicateTransaction` and changes nothing; in particular
submitting the same deposit twice leaves exactly the state produced by the
first submission. -/
theorem c8_duplicate_transaction :
    (∀ (l : Ledger) (t : Transaction), t.isDW = true →
      (lookupA l.client_tx_to_idx t.key).isSome = true →
      Ledger.processTransaction l t
        = (l, some (.DuplicateTransaction t.tx))) ∧
    (∀ (l : Ledger) (c : Client) (x : Tx) (a : ℚ),
      (Ledger.processTransaction l (.Deposit c x a)).2 = none →
      Ledger.processTransaction
          (Ledger.processTransaction l (.Deposit c x a)).1 (.Deposit c x a)
        = ((Ledger.processTransaction l (.Deposit c x a)).1,
            some (.DuplicateTransaction x))) := by
  refine ⟨duplicate_rejected, ?_⟩
  intro l c x a hsucc
  exact duplicate_rejected _ _ rfl (deposit_success_registers hsucc)

/-- C10: the core never validates amounts for non-negativity: on an
unlocked account with a fresh (client, tx) key, a Deposit of any amount
(negative included) succeeds and adds the amount to total, and a
Withdrawal of amount w succeeds whenever w ≤ total (so any negative
amount succeeds on a non-negative balance) and subtracts w from total. -/
theorem c10_no_amount_validation :
    (∀ (l : Ledger) (c : Client) (x : Tx) (a : ℚ),
      lookupA l.client_tx_to_idx (c, x) = none →
      (∀ b, lookupA l.balance c = some b → b.locked = false) →
      (Ledger.processTransaction l (.Deposit c x a)).2 = none ∧
      ∃ b', lookupA (Ledger.processTransaction l (.Deposit c x a)).1.balance c
          = some b' ∧
        b'.total = (match lookupA l.balance c with
          | some b => b.total
          | none => 0) + a) ∧
    (∀ (l : Ledger) (c : Client) (x : Tx) (w : ℚ) (b : Balance),
      lookupA l.client_tx_to_idx (c, x) = none →
      lookupA l.balance c = some b → b.locked = false → w ≤ b.total →
      (Ledger.processTransaction l (.Withdrawal c x w)).2 = none ∧
      ∃ b', lookupA (Ledger.processTransaction l
          (.Withdrawal c x w)).1.balance c = some b' ∧
        b'.total = b.total - w) := by
  constructor
  · intro l c x a hk hunlocked
    rw [Ledger.processTransaction]
    simp only [Transaction.isDW, Transaction.isDeposit, Transaction.key,
      Transaction.client, Transaction.tx, Bool.true_and, Bool.not_true,
      Bool.false_and, if_false, Bool.false_eq_true, hk, Option.isSome_none]
    cases hbal : lookupA l.balance c with
    | some b0 =>
      have hlock := hunlocked b0 hbal
      simp only [hbal, Option.isNone_some, Bool.false_eq_true, if_false,
        hlock, Balance.deposit]
      refine ⟨trivial, { b0 with total := b0.total + a, locked := false },
        ?_, rfl⟩
      simp only [Ledger.registerEntry, Ledger.setBalance, lookupA_setA,
        if_pos rfl, hbal, Option.map_some', if_true]
    | none =>
      simp only [hbal, Option.isNone_none, if_true, lookupA_cons, if_pos rfl,
        Balance.new, Bool.false_eq_true, if_false, Balance.deposit]
      refine ⟨trivial, ⟨c, 0 + a, [], false⟩, ?_, rfl⟩
      simp [Ledger.registerEntry, Ledger.setBalance, setA, lookupA_cons]
  · intro l c x w b hk hbal hlock hw
    rw [Ledger.processTransaction]
    simp only [Transaction.isDW, Transaction.isDeposit, Transaction.key,
      Transaction.client, Transaction.tx, Bool.true_and, Bool.not_false,
      Bool.false_and, if_false, Bool.false_eq_true, hk, Option.isSome_none]
    have hnl : ¬ b.total < w := not_lt.mpr hw
    simp only [hbal, Option.isNone_some, Bool.false_eq_true, if_false,
      hlock, Balance.withdraw, hnl, if_false]
    refine ⟨trivial, { b with total := b.total - w, locked := false },
      ?_, rfl⟩
    simp only [Ledger.registerEntry, Ledger.setBalance, lookupA_setA,
      if_pos rfl, hbal, Option.map_some', if_true]

theorem c8_witness :
    Ledger.processTransaction
        (Ledger.processTransaction Ledger.new (.Deposit 0 1 100)).1
        (.Deposit 0 1 100)
      = ((Ledger.processTransaction Ledger.new (.Deposit 0 1 100)).1,
          some (.DuplicateTransaction 1)) :=
  c8_duplicate_transaction.2 Ledger.new 0 1 100 (by decide)

theorem c10_witness :
    ((Ledger.processTransaction Ledger.new (.Deposit 0 1 (-5))).2 = none ∧
     ∃ b', lookupA (Ledger.processTransaction Ledger.new
         (.Deposit 0 1 (-5))).1.balance 0 = some b' ∧
       b'.total = (match lookupA Ledger.new.balance 0 with
         | some b => b.total
         | none => 0) + (-5)) ∧
    ((Ledger.processTransaction
        (Ledger.processTransaction Ledger.new (.Deposit 0 1 10)).1
        (.Withdrawal 0 2 (-3))).2 = none ∧
     ∃ b', lookupA (Ledger.processTransaction
         (Ledger.processTransaction Ledger.new (.Deposit 0 1 10)).1
         (.Withdrawal 0 2 (-3))).1.balance 0 = some b' ∧
       b'.total = (10 : ℚ) - (-3)) :=
  ⟨c10_no_amount_validation.1 Ledger.new 0 1 (-5) rfl
    (by intro b h; cases h),
   c10_no_amount_validation.2
    (Ledger.processTransaction Ledger.new (.Deposit 0 1 10)).1
    0 2 (-3) ⟨0, 10, [], false⟩
    (by norm_num [Ledger.processTransaction, Ledger.new, Transaction.isDW,
      Transaction.isDeposit, Transaction.key, Transaction.client,
      Transaction.tx, lookupA, Balance.new, Balance.deposit,
      Ledger.setBalance, Ledger.registerEntry, setA])
    (by norm_num [Ledger.processTransaction, Ledger.new, Transaction.isDW,
      Transaction.isDeposit, Transaction.key, Transaction.client,
      Transaction.tx, lookupA, Balance.new, Balance.deposit,
      Ledger.setBalance, Ledger.registerEntry, setA])
    rfl (by norm_num)⟩

theorem transactions_cases (l : Ledger) (t : Transaction) :
    (Ledger.processTransaction l t).1.transactions = l.transactions ∨
    (Ledger.processTransaction l t).1.transactions
        = l.transactions ++ [Entry.new t] ∨
    ∃ idx entry entry2, l.transactions[idx]? = some entry ∧
      (Ledger.processTransaction l t).1.transactions
          = l.transactions.set idx entry2 ∧
      ((entry.status = .Active ∧
          entry2 = { entry with status := .Disputed }) ∨
       (entry.status = .Disputed ∧
          entry2 = { entry with status := .Resolved }) ∨
       (entry.status = .Disputed ∧
          entry2 = { entry with status := .ChargedBack })) := by
  cases t with
  | Deposit c x a =>
    rw [Ledger.processTransaction]
    simp only [Transaction.isDW, Transaction.isDeposit, Transaction.key,
      Transaction.client, Transaction.tx, Bool.true_and, Bool.not_true,
      Bool.false_and, if_false, Bool.false_eq_true]
    split
    · exact Or.inl rfl
    · cases hbal : lookupA l.balance c with
      | some b0 =>
        simp only [hbal, Option.isNone_some, Bool.false_eq_true, if_false]
        split
        · exact Or.inl rfl
        · split
          · exact Or.inl rfl
          · exact Or.inr (Or.inl rfl)
      | none =>
        simp only [hbal, Option.isNone_none, if_true, lookupA_cons,
          if_pos rfl, Balance.new, Bool.false_eq_true, if_false,
          Balance.deposit]
        exact Or.inr (Or.inl rfl)
  | Withdrawal c x a =>
    rw [Ledger.processTransaction]
    simp only [Transaction.isDW, Transaction.isDeposit, Transaction.key,
      Transaction.client, Transaction.tx, Bool.true_and, Bool.not_false,
      Bool.false_and, if_false, Bool.false_eq_true]
    split
    · exact Or.inl rfl
    · cases hbal : lookupA l.balance c with
      | none =>
        simp only [hbal, Option.isNone_none, if_true]
        exact Or.inl trivial
      | some b0 =>
        simp only [hbal, Option.isNone_some, Bool.false_eq_true, if_false]
        split
        · exact Or.inl rfl
        · split
          · exact Or.inl rfl
          · exact Or.inr (Or.inl rfl)
  | Dispute c x =>
    rw [Ledger.processTransaction]
    simp only [Transaction.isDW, Transaction.isDeposit, Transaction.key,
      Transaction.client, Transaction.tx, Bool.false_and, Bool.not_false,
      Bool.true_and, if_false, Bool.false_eq_true]
    cases hbal : lookupA l.balance c with
    | none =>
      simp only [Option.isNone_none, if_true]
      exact Or.inl trivial
    | some b =>
      simp only [hbal, Option.isNone_some, Bool.false_eq_true, if_false]
      split
      · exact Or.inl rfl
      · split
        · exact Or.inl rfl
        · rename_i hlock idx hk
          split
          · exact Or.inl rfl
          · rename_i entry he
            split
            · exact Or.inl rfl
            · rename_i entry2 hok
              obtain ⟨hst, rfl⟩ := Entry.dispute_ok hok
              split
              · split
                · exact Or.inr (Or.inr
                    ⟨_, entry, _, he, rfl, Or.inl ⟨hst, rfl⟩⟩)
                · exact Or.inr (Or.inr
                    ⟨_, entry, _, he, rfl, Or.inl ⟨hst, rfl⟩⟩)
              · split
                · exact Or.inr (Or.inr
                    ⟨_, entry, _, he, rfl, Or.inl ⟨hst, rfl⟩⟩)
                · exact Or.inr (Or.inr
                    ⟨_, entry, _, he, rfl, Or.inl ⟨hst, rfl⟩⟩)
              · exact Or.inr (Or.inr
                  ⟨_, entry, _, he, rfl, Or.inl ⟨hst, rfl⟩⟩)
  | Resolve c x =>
    rw [Ledger.processTransaction]
    simp only [Transaction.isDW, Transaction.isDeposit, Transaction.key,
      Transaction.client, Transaction.tx, Bool.false_and, Bool.not_false,
      Bool.true_and, if_false, Bool.false_eq_true]
    cases hbal : lookupA l.balance c with
    | none =>
      simp only [Option.isNone_none, if_true]
      exact Or.inl trivial
    | some b =>
      simp only [hbal, Option.isNone_some, Bool.false_eq_true, if_false]
      split
      · exact Or.inl rfl
      · split
        · exact Or.inl rfl
        · rename_i hlock idx hk
          split
          · exact Or.inl rfl
          · rename_i entry he
            split
            · exact Or.inl rfl
            · rename_i entry2 hok
              obtain ⟨hst, rfl⟩ := Entry.resolve_ok hok
              split
              · exact Or.inr (Or.inr
                  ⟨_, entry, _, he, rfl, Or.inr (Or.inl ⟨hst, rfl⟩)⟩)
              · exact Or.inr (Or.inr
                  ⟨_, entry, _, he, rfl, Or.inr (Or.inl ⟨hst, rfl⟩)⟩)
  | ChargeBack c x =>
    rw [Ledger.processTransaction]
    simp only [Transaction.isDW, Transaction.isDeposit, Transaction.key,
      Transaction.client, Transaction.tx, Bool.false_and, Bool.not_false,
      Bool.true_and, if_false, Bool.false_eq_true]
    cases hbal : lookupA l.balance c with
    | none =>
      simp only [Option.isNone_none, if_true]
      exact Or.inl trivial
    | some b =>
      simp only [hbal, Option.isNone_some, Bool.false_eq_true, if_false]
      split
      · exact Or.inl rfl
      · split
        · exact Or.inl rfl
        · rename_i hlock idx hk
          split
          · exact Or.inl rfl
          · rename_i entry he
            split
            · exact Or.inl rfl
            · rename_i entry2 hok
              obtain ⟨hst, rfl⟩ := Entry.chargeBack_ok hok
              split
              · exact Or.inr (Or.inr
                  ⟨_, entry, _, he, rfl, Or.inr (Or.inr ⟨hst, rfl⟩)⟩)
              · exact Or.inr (Or.inr
                  ⟨_, entry, _, he, rfl, Or.inr (Or.inr ⟨hst, rfl⟩)⟩)

theorem status_step {l : Ledger} (t : Transaction) {i : ℕ} {e e' : Entry}
    (he : l.transactions[i]? = some e)
    (he' : (Ledger.processTransaction l t).1.transactions[i]? = some e')
    (hne : e.status ≠ e'.status) :
    (e.status = .Active ∧ e'.status = .Disputed) ∨
    (e.status = .Disputed ∧ e'.status = .Resolved) ∨
    (e.status = .Disputed ∧ e'.status = .ChargedBack) := by
  rcases transactions_cases l t with h | h | ⟨idx, entry, entry2, hent, h, htr⟩
  · rw [h, he] at he'
    cases he'
    exact absurd rfl hne
  · rw [h, getElem?_append_of_lt _ _ _ (lt_of_getElem?_some he), he] at he'
    cases he'
    exact absurd rfl hne
  · rw [h, getElem?_set_of_some _ hent] at he'
    by_cases hii : i = idx
    · rw [if_pos hii] at he'
      cases he'
      subst hii
      rw [he] at hent
      cases hent
      rcases htr with ⟨ha, rfl⟩ | ⟨ha, rfl⟩ | ⟨ha, rfl⟩
      · exact Or.inl ⟨ha, rfl⟩
      · exact Or.inr (Or.inl ⟨ha, rfl⟩)
      · exact Or.inr (Or.inr ⟨ha, rfl⟩)
    · rw [if_neg hii, he] at he'
      cases he'
      exact absurd rfl hne

theorem dispute_wrong_status {l : Ledger} {c : Client} {x : Tx} {b : Balance}
    {idx : ℕ} {e : Entry} (hb : lookupA l.balance c = some b)
    (hlock : b.locked = false)
    (hk : lookupA l.client_tx_to_idx (c, x) = some idx)
    (he : l.transactions[idx]? = some e) (hne : e.status ≠ .Active) :
    Ledger.processTransaction l (.Dispute c x)
      = (l, some (.UnexpectedTxStatus e.status)) := by
  rw [Ledger.processTransaction]
  simp only [Transaction.isDW, Transaction.isDeposit, Transaction.key,
    Transaction.client, Transaction.tx, Bool.false_and, Bool.not_false,
    Bool.true_and, if_false, Bool.false_eq_true, hb, Option.isNone_some,
    hlock, hk, he, Entry.dispute, ne_eq, hne, not_false_eq_true, if_true]

theorem resolve_wrong_status {l : Ledger} {c : Client} {x : Tx} {b : Balance}
    {idx : ℕ} {e : Entry} (hb : lookupA l.balance c = some b)
    (hlock : b.locked = false)
    (hk : lookupA l.client_tx_to_idx (c, x) = some idx)
    (he : l.transactions[idx]? = some e) (hne : e.status ≠ .Disputed) :
    Ledger.processTransaction l (.Resolve c x)
      = (l, some (.UnexpectedTxStatus e.status)) := by
  rw [Ledger.processTransaction]
  simp only [Transaction.isDW, Transaction.isDeposit, Transaction.key,
    Transaction.client, Transaction.tx, Bool.false_and, Bool.not_false,
    Bool.true_and, if_false, Bool.false_eq_true, hb, Option.isNone_some,
    hlock, hk, he, Entry.resolve, ne_eq, hne, not_false_eq_true, if_true]

theorem chargeBack_wrong_status {l : Ledger} {c : Client} {x : Tx}
    {b : Balance} {idx : ℕ} {e : Entry} (hb : lookupA l.balance c = some b)
    (hlock : b.locked = false)
    (hk : lookupA l.client_tx_to_idx (c, x) = some idx)
    (he : l.transactions[idx]? = some e) (hne : e.status ≠ .Disputed) :
    Ledger.processTransaction l (.ChargeBack c x)
      = (l, some (.UnexpectedTxStatus e.status)) := by
  rw [Ledger.processTransaction]
  simp only [Transaction.isDW, Transaction.isDeposit, Transaction.key,
    Transaction.client, Transaction.tx, Bool.false_and, Bool.not_false,
    Bool.true_and, if_false, Bool.false_eq_true, hb, Option.isNone_some,
    hlock, hk, he, Entry.chargeBack, ne_eq, hne, not_false_eq_true, if_true]

/-- C6: a Dispute on an entry that is not Active, and a Resolve or
ChargeBack on an entry that is not Disputed, fail with
`UnexpectedTxStatus` and leave the whole ledger unchanged; and across any
single `process_transaction` call the only status changes ever performed
on a stored entry are Active to Disputed, Disputed to Resolved and
Disputed to ChargedBack, so Resolved and ChargedBack are terminal. -/
theorem c6_status_machine (l : Ledger) :
    (∀ (c : Client) (x : Tx) (b : Balance) (idx : ℕ) (e : Entry),
      lookupA l.balance c = some b → b.locked = false →
      lookupA l.client_tx_to_idx (c, x) = some idx →
      l.transactions[idx]? = some e →
      (e.status ≠ .Active →
        Ledger.processTransaction l (.Dispute c x)
          = (l, some (.UnexpectedTxStatus e.status))) ∧
      (e.status ≠ .Disputed →
        Ledger.processTransaction l (.Resolve c x)
          = (l, some (.UnexpectedTxStatus e.status))) ∧
      (e.status ≠ .Disputed →
        Ledger.processTransaction l (.ChargeBack c x)
          = (l, some (.UnexpectedTxStatus e.status)))) ∧
    (∀ (t : Transaction) (i : ℕ) (e e' : Entry),
      l.transactions[i]? = some e →
      (Ledger.processTransaction l t).1.transactions[i]? = some e' →
      e.status ≠ e'.status →
      (e.status = .Active ∧ e'.status = .Disputed) ∨
      (e.status = .Disputed ∧ e'.status = .Resolved) ∨
      (e.status = .Disputed ∧ e'.status = .ChargedBack)) := by
  refine ⟨?_, ?_⟩
  · intro c x b idx e hb hlock hk he
    exact ⟨fun hne => dispute_wrong_status hb hlock hk he hne,
           fun hne => resolve_wrong_status hb hlock hk he hne,
           fun hne => chargeBack_wrong_status hb hlock hk he hne⟩
  · intro t i e e' he he' hne
    exact status_step t he he' hne

theorem c6_witness :
    Ledger.processTransaction
        (Ledger.processAll Ledger.new [.Deposit 0 1 100, .Dispute 0 1])
        (.Dispute 0 1)
      = (Ledger.processAll Ledger.new [.Deposit 0 1 100, .Dispute 0 1],
          some (.UnexpectedTxStatus .Disputed)) := by
  have h := (c6_status_machine
      (Ledger.processAll Ledger.new [.Deposit 0 1 100, .Dispute 0 1])).1
    0 1 ⟨0, 100, [(1, 100)], false⟩ 0 ⟨.Deposit 0 1 100, .Disputed⟩
    (by norm_num [Ledger.processAll, Ledger.processTransaction, Ledger.new,
      Transaction.isDW, Transaction.isDeposit, Transaction.key,
      Transaction.client, Transaction.tx, lookupA, setA, Balance.new,
      Balance.deposit, Balance.hold, Entry.dispute, Entry.new,
      Ledger.setBalance, Ledger.registerEntry, Option.some_ne_none,
      Option.isNone_some])
    rfl
    (by norm_num [Ledger.processAll, Ledger.processTransaction, Ledger.new,
      Transaction.isDW, Transaction.isDeposit, Transaction.key,
      Transaction.client, Transaction.tx, lookupA, setA, Balance.new,
      Balance.deposit, Balance.hold, Entry.dispute, Entry.new,
      Ledger.setBalance, Ledger.registerEntry, Option.some_ne_none,
      Option.isNone_some])
    (by norm_num [Ledger.processAll, Ledger.processTransaction, Ledger.new,
      Transaction.isDW, Transaction.isDeposit, Transaction.key,
      Transaction.client, Transaction.tx, lookupA, setA, Balance.new,
      Balance.deposit, Balance.hold, Entry.dispute, Entry.new,
      Ledger.setBalance, Ledger.registerEntry, Option.some_ne_none,
      Option.isNone_some])
  exact h.1 (fun hh => TxStatus.noConfusion hh)

/-- C7: a successful Dispute of a stored deposit of amount A (with A in
the spec's non-negative amount domain) records a hold of +A, so available
decreases by A and held increases by A while total is unchanged; a
successful Dispute of a stored withdrawal of amount B records a hold of
-B, which `held` excludes, so available, held and total are all unchanged
by the dispute itself. -/
theorem c7_dispute_effect {l : Ledger} {c : Client} {x : Tx} {b : Balance}
    {idx : ℕ} {entry : Entry} (hb : lookupA l.balance c = some b)
    (hk : lookupA l.client_tx_to_idx (c, x) = some idx)
    (he : l.transactions[idx]? = some entry) :
    (Ledger.processTransaction l (.Dispute c x)).2 = none →
    ∃ b', lookupA (Ledger.processTransaction l (.Dispute c x)).1.balance c
        = some b' ∧
      (∀ c0 x0 A, entry.t = .Deposit c0 x0 A → 0 ≤ A →
        b'.available = b.available - A ∧ b'.held = b.held + A ∧
        b'.total = b.total) ∧
      (∀ c0 x0 B, entry.t = .Withdrawal c0 x0 B → 0 ≤ B →
        b'.available = b.available ∧ b'.held = b.held ∧
        b'.total = b.total) := by
  rw [Ledger.processTransaction]
  simp only [Transaction.isDW, Transaction.isDeposit, Transaction.key,
    Transaction.client, Transaction.tx, Bool.false_and, Bool.not_false,
    Bool.true_and, if_false, Bool.false_eq_true, hb, Option.isNone_some,
    hk, he]
  split
  · intro h
    simp at h
  · split
    · intro h
      simp at h
    · rename_i entry2 hok
      obtain ⟨hst, rfl⟩ := Entry.dispute_ok hok
      split
      · rename_i c2 x2 a2 het
        split
        · intro h
          simp at h
        · rename_i b2 hhok
          obtain ⟨hhn, rfl⟩ := Balance.hold_ok hhok
          intro _
          refine ⟨{ b with holds := (x, a2) :: b.holds }, ?_, ?_, ?_⟩
          · simp only [Ledger.setBalance, lookupA_setA, if_pos rfl, hb,
              Option.map_some', if_true]
          · intro c0 x0 A hA hAle
            rw [het] at hA
            injection hA with h1 h2 h3
            subst h3
            rcases hAle.lt_or_eq with hpos | hzero
            · simp only [Balance.available, Balance.held, heldOf_cons,
                if_pos hpos]
              refine ⟨?_, ?_, ?_⟩ <;> first | trivial | ring
            · rw [← hzero]
              simp only [Balance.available, Balance.held, heldOf_cons,
                lt_irrefl, if_false]
              refine ⟨?_, ?_, ?_⟩ <;> first | trivial | ring
          · intro c0 x0 B hB hBle
            rw [het] at hB
            cases hB
      · rename_i c2 x2 a2 het
        split
        · intro h
          simp at h
        · rename_i b2 hhok
          obtain ⟨hhn, rfl⟩ := Balance.hold_ok hhok
          intro _
          refine ⟨{ b with holds := (x, -a2) :: b.holds }, ?_, ?_, ?_⟩
          · simp only [Ledger.setBalance, lookupA_setA, if_pos rfl, hb,
              Option.map_some', if_true]
          · intro c0 x0 A hA hAle
            rw [het] at hA
            cases hA
          · intro c0 x0 B hB hBle
            rw [het] at hB
            injection hB with h1 h2 h3
            subst h3
            have hnl : ¬ (0 : ℚ) < -a2 := by
              simp only [not_lt]
              linarith
            simp only [Balance.available, Balance.held, heldOf_cons,
              if_neg hnl]
            refine ⟨?_, ?_, ?_⟩ <;> trivial
      · rename_i h1 h2
        intro _
        refine ⟨b, hb, ?_, ?_⟩
        · intro c0 x0 A hA hAle
          exact absurd hA (h1 c0 x0 A)
        · intro c0 x0 B hB hBle
          exact absurd hB (h2 c0 x0 B)

theorem c7_witness :
    ∃ b', lookupA (Ledger.processTransaction
        (Ledger.processTransaction Ledger.new (.Deposit 0 1 100)).1
        (.Dispute 0 1)).1.balance 0 = some b' ∧
      b'.available = 0 ∧ b'.held = 100 ∧ b'.total = 100 := by
  obtain ⟨b', hlook, hdep, -⟩ :=
    @c7_dispute_effect (Ledger.processTransaction Ledger.new (.Deposit 0 1 100)).1
      0 1 ⟨0, 100, [], false⟩ 0 ⟨.Deposit 0 1 100, .Active⟩
      (by norm_num [Ledger.processTransaction, Ledger.new, Transaction.isDW,
        Transaction.isDeposit, Transaction.key, Transaction.client,
        Transaction.tx, lookupA, setA, Balance.new, Balance.deposit,
        Entry.new, Ledger.setBalance, Ledger.registerEntry])
      (by norm_num [Ledger.processTransaction, Ledger.new, Transaction.isDW,
        Transaction.isDeposit, Transaction.key, Transaction.client,
        Transaction.tx, lookupA, setA, Balance.new, Balance.deposit,
        Entry.new, Ledger.setBalance, Ledger.registerEntry])
      (by norm_num [Ledger.processTransaction, Ledger.new, Transaction.isDW,
        Transaction.isDeposit, Transaction.key, Transaction.client,
        Transaction.tx, lookupA, setA, Balance.new, Balance.deposit,
        Entry.new, Ledger.setBalance, Ledger.registerEntry])
      (by norm_num [Ledger.processTransaction, Ledger.new, Transaction.isDW,
        Transaction.isDeposit, Transaction.key, Transaction.client,
        Transaction.tx, lookupA, setA, Balance.new, Balance.deposit,
        Balance.hold, Entry.dispute, Entry.new, Ledger.setBalance,
        Ledger.registerEntry, Option.some_ne_none, Option.isNone_some])
  obtain ⟨h1, h2, h3⟩ := hdep 0 1 100 rfl (by norm_num)
  refine ⟨b', hlook, ?_, ?_, ?_⟩
  · rw [h1]
    norm_num [Balance.available, Balance.held, Balance.heldOf]
  · rw [h2]
    norm_num [Balance.held, Balance.heldOf]
  · rw [h3]

/-- C4: when a ChargeBack succeeds from a reachable state, `apply_hold`
subtracts the stored hold amount from total and deletes the hold: for a
disputed deposit of amount A the client's total decreases by A, for a
disputed withdrawal of amount A it increases by A, so a successful
chargeback always reverses the original transaction's effect on total. -/
theorem c4_chargeback_reverses_total {l : Ledger} (hR : l.Reachable) {c : Client}
    {x : Tx} {b : Balance} {idx : ℕ} {entry : Entry}
    (hb : lookupA l.balance c = some b)
    (hk : lookupA l.client_tx_to_idx (c, x) = some idx)
    (he : l.transactions[idx]? = some entry) :
    (Ledger.processTransaction l (.ChargeBack c x)).2 = none →
    ∃ b', lookupA (Ledger.processTransaction l (.ChargeBack c x)).1.balance c
        = some b' ∧
      lookupA b'.holds x = none ∧
      (∀ c0 x0 A, entry.t = .Deposit c0 x0 A → b'.total = b.total - A) ∧
      (∀ c0 x0 A, entry.t = .Withdrawal c0 x0 A → b'.total = b.total + A) := by
  have hI := inv_of_reachable hR
  rw [Ledger.processTransaction]
  simp only [Transaction.isDW, Transaction.isDeposit, Transaction.key,
    Transaction.client, Transaction.tx, Bool.false_and, Bool.not_false,
    Bool.true_and, if_false, Bool.false_eq_true, hb, Option.isNone_some,
    hk, he]
  split
  · intro h
    simp at h
  · split
    · intro h
      simp at h
    · rename_i entry2 hok
      obtain ⟨hst, rfl⟩ := Entry.chargeBack_ok hok
      split
      · intro h
        simp at h
      · rename_i b2 haok
        obtain ⟨v, hv, rfl⟩ := Balance.applyHold_ok haok
        intro _
        obtain ⟨i2, e2, hki2, hei2, hdi2, hva⟩ := hI.holds_entry c b x v hb hv
        rw [hk] at hki2
        cases hki2
        rw [he] at hei2
        cases hei2
        refine ⟨Balance.lockBalance
            { b with total := b.total - v, holds := eraseA b.holds x },
          ?_, ?_, ?_, ?_⟩
        · simp only [Ledger.setBalance, lookupA_setA, if_pos rfl, hb,
            Option.map_some', if_true]
        · show lookupA (eraseA b.holds x) x = none
          rw [lookupA_eraseA, if_pos rfl]
        · intro c0 x0 A hA
          rw [hA] at hva
          simp only [holdAmount, Option.some.injEq] at hva
          show b.total - v = b.total - A
          rw [hva]
        · intro c0 x0 A hA
          rw [hA] at hva
          simp only [holdAmount, Option.some.injEq] at hva
          show b.total - v = b.total + A
          rw [← hva]
          ring

theorem c4_witness :
    ∃ b', lookupA (Ledger.processTransaction
        (Ledger.processTransaction
          (Ledger.processTransaction Ledger.new (.Deposit 0 1 100)).1
          (.Dispute 0 1)).1
        (.ChargeBack 0 1)).1.balance 0 = some b' ∧
      lookupA b'.holds 1 = none ∧ b'.total = 0 := by
  obtain ⟨b', h1, h2, h3, -⟩ :=
    @c4_chargeback_reverses_total
      (Ledger.processTransaction
        (Ledger.processTransaction Ledger.new (.Deposit 0 1 100)).1
        (.Dispute 0 1)).1
      (Ledger.Reachable.step _ (Ledger.Reachable.step _ Ledger.Reachable.empty))
      0 1 ⟨0, 100, [(1, 100)], false⟩ 0 ⟨.Deposit 0 1 100, .Disputed⟩
      (by norm_num [Ledger.processTransaction, Ledger.new, Transaction.isDW,
        Transaction.isDeposit, Transaction.key, Transaction.client,
        Transaction.tx, lookupA, setA, Balance.new, Balance.deposit,
        Balance.hold, Entry.dispute, Entry.new, Ledger.setBalance,
        Ledger.registerEntry, Option.some_ne_none, Option.isNone_some])
      (by norm_num [Ledger.processTransaction, Ledger.new, Transaction.isDW,
        Transaction.isDeposit, Transaction.key, Transaction.client,
        Transaction.tx, lookupA, setA, Balance.new, Balance.deposit,
        Balance.hold, Entry.dispute, Entry.new, Ledger.setBalance,
        Ledger.registerEntry, Option.some_ne_none, Option.isNone_some])
      (by norm_num [Ledger.processTransaction, Ledger.new, Transaction.isDW,
        Transaction.isDeposit, Transaction.key, Transaction.client,
        Transaction.tx, lookupA, setA, Balance.new, Balance.deposit,
        Balance.hold, Entry.dispute, Entry.new, Ledger.setBalance,
        Ledger.registerEntry, Option.some_ne_none, Option.isNone_some])
      (by norm_num [Ledger.processTransaction, Ledger.new, Transaction.isDW,
        Transaction.isDeposit, Transaction.key, Transaction.client,
        Transaction.tx, lookupA, setA, eraseA, Balance.new, Balance.deposit,
        Balance.hold, Balance.applyHold, Balance.lockBalance, Entry.dispute,
        Entry.chargeBack, Entry.new, Ledger.setBalance,
        Ledger.registerEntry, Option.some_ne_none, Option.isNone_some])
  have h4 := h3 0 1 100 rfl
  refine ⟨b', h1, h2, ?_⟩
  rw [h4]
  norm_num

theorem filter_eq_singleton_of_unique {α : Type} {p : α → Bool} {xs : List α}
    {i : ℕ} {a : α} (h : xs[i]? = some a) (hp : p a = true)
    (huniq : ∀ j b, xs[j]? = some b → p b = true → j = i) :
    xs.filter p = [a] := by
  induction xs generalizing i with
  | nil => cases h
  | cons y rest ih =>
    cases i with
    | zero =>
      rw [List.getElem?_cons_zero] at h
      cases h
      rw [List.filter_cons, if_pos (by simp [hp])]
      have hnil : rest.filter p = [] := by
        rw [List.filter_eq_nil_iff]
        intro b hbmem hpb
        obtain ⟨j, hj⟩ := List.mem_iff_getElem?.mp hbmem
        have := huniq (j + 1) b (by rw [List.getElem?_cons_succ]; exact hj) hpb
        cases this
      rw [hnil]
    | succ j =>
      rw [List.getElem?_cons_succ] at h
      have hpy : ¬ p y = true := by
        intro hpy
        have := huniq 0 y (List.getElem?_cons_zero) hpy
        cases this
      rw [List.filter_cons, if_neg (by simp [hpy])]
      exact ih h (fun j' b hj' hpb => by
        have := huniq (j' + 1) b (by rw [List.getElem?_cons_succ]; exact hj') hpb
        omega)

/-- C5: in every reachable ledger state, a client's holds map contains a
key tx exactly when exactly one stored Entry has key (client, tx) and that
entry's status is Disputed. -/
theorem c5_holds_iff_unique_disputed {l : Ledger} (hR : l.Reachable)
    {c : Client} {b : Balance} (hb : lookupA l.balance c = some b) (x : Tx) :
    (lookupA b.holds x).isSome = true ↔
      ∃ e, l.transactions.filter (fun e => decide (e.t.key = (c, x))) = [e] ∧
        e.status = .Disputed := by
  have hI := inv_of_reachable hR
  constructor
  · intro hs
    obtain ⟨v, hv⟩ := Option.isSome_iff_exists.mp hs
    obtain ⟨i, e, hki, hei, hdi, -⟩ := hI.holds_entry c b x v hb hv
    refine ⟨e, ?_, hdi⟩
    have hkey : e.t.key = (c, x) := by
      obtain ⟨e2, he2, kk⟩ := hI.idx_entry (c, x) i hki
      rw [hei] at he2
      cases he2
      exact kk
    refine filter_eq_singleton_of_unique hei (by simp [hkey]) ?_
    intro j e' hj hp
    rw [decide_eq_true_eq] at hp
    have hthis := hI.entry_idx j e' hj
    rw [hp, hki] at hthis
    exact (Option.some.inj hthis).symm
  · rintro ⟨e, hfil, hdis⟩
    have hmem : e ∈ l.transactions.filter
        (fun e => decide (e.t.key = (c, x))) := by
      rw [hfil]
      exact List.mem_singleton.mpr rfl
    rw [List.mem_filter] at hmem
    obtain ⟨hmem2, hp⟩ := hmem
    rw [decide_eq_true_eq] at hp
    obtain ⟨i, hi⟩ := List.mem_iff_getElem?.mp hmem2
    obtain ⟨b0, v, hb0, hx0, -⟩ := hI.entry_holds i e hi hdis
    have hcl : e.t.client = c := congrArg Prod.fst hp
    have htx : e.t.tx = x := congrArg Prod.snd hp
    rw [hcl, hb] at hb0
    cases hb0
    rw [htx] at hx0
    rw [hx0]
    rfl

theorem c5_witness :
    ∃ e, (Ledger.processTransaction
        (Ledger.processTransaction Ledger.new (.Deposit 0 1 100)).1
        (.Dispute 0 1)).1.transactions.filter
          (fun e => decide (e.t.key = (0, 1))) = [e] ∧
      e.status = .Disputed := by
  refine (c5_holds_iff_unique_disputed
    (Ledger.Reachable.step _
      (Ledger.Reachable.step _ Ledger.Reachable.empty))
    (show lookupA (Ledger.processTransaction
        (Ledger.processTransaction Ledger.new (.Deposit 0 1 100)).1
        (.Dispute 0 1)).1.balance 0 = some ⟨0, 100, [(1, 100)], false⟩ by
      norm_num [Ledger.processTransaction, Ledger.new, Transaction.isDW,
        Transaction.isDeposit, Transaction.key, Transaction.client,
        Transaction.tx, lookupA, setA, Balance.new, Balance.deposit,
        Balance.hold, Entry.dispute, Entry.new, Ledger.setBalance,
        Ledger.registerEntry, Option.some_ne_none, Option.isNone_some])
    1).mp (by decide)

theorem benign_step {l : Ledger}
    (hQ : ∀ c b, lookupA l.balance c = some b → b.holds = [] ∧ 0 ≤ b.total)
    {t : Transaction} (ht : benignTx t) :
    ∀ c b, lookupA (Ledger.processTransaction l t).1.balance c = some b →
      b.holds = [] ∧ 0 ≤ b.total := by
  cases t with
  | Dispute c0 x => exact absurd ht (by simp [benignTx])
  | Deposit c0 x a =>
    simp only [benignTx] at ht
    intro c b
    rw [Ledger.processTransaction]
    simp only [Transaction.isDW, Transaction.isDeposit, Transaction.key,
      Transaction.client, Transaction.tx, Bool.true_and, Bool.not_true,
      Bool.false_and, if_false, Bool.false_eq_true]
    split
    · exact hQ c b
    · cases hbal : lookupA l.balance c0 with
      | some b0 =>
        simp only [hbal, Option.isNone_some, Bool.false_eq_true, if_false]
        split
        · exact hQ c b
        · split
          · exact hQ c b
          · rename_i hnl ex b2 heq
            rw [Balance.deposit, if_neg hnl] at heq
            cases heq
            simp only [Ledger.registerEntry, Ledger.setBalance, lookupA_setA]
            by_cases hcc : c = c0
            · rw [if_pos hcc, hbal]
              simp only [Option.map_some']
              intro hsb
              cases hsb
              refine ⟨(hQ c0 b0 hbal).1, ?_⟩
              exact add_nonneg (hQ c0 b0 hbal).2 ht
            · rw [if_neg hcc]
              exact hQ c b
      | none =>
        simp only [hbal, Option.isNone_none, if_true, lookupA_cons,
          if_pos rfl, Balance.new, Bool.false_eq_true, if_false,
          Balance.deposit]
        simp only [Ledger.registerEntry, Ledger.setBalance]
        have hset : ∀ (bnew b2 : Balance),
            setA ((c0, bnew) :: l.balance) c0 b2
              = (c0, b2) :: setA l.balance c0 b2 := by
          intro bnew b2
          simp [setA]
        rw [hset, lookupA_cons]
        by_cases hcc : c0 = c
        · rw [if_pos hcc]
          intro hsb
          cases hsb
          refine ⟨rfl, ?_⟩
          show (0 : ℚ) ≤ 0 + a
          linarith
        · rw [if_neg hcc, lookupA_setA]
          by_cases hc2 : c = c0
          · exact absurd hc2.symm hcc
          · rw [if_neg hc2]
            exact hQ c b
  | Withdrawal c0 x a =>
    simp only [benignTx] at ht
    intro c b
    rw [Ledger.processTransaction]
    simp only [Transaction.isDW, Transaction.isDeposit, Transaction.key,
      Transaction.client, Transaction.tx, Bool.true_and, Bool.not_false,
      Bool.false_and, if_false, Bool.false_eq_true]
    split
    · exact hQ c b
    · cases hbal : lookupA l.balance c0 with
      | none =>
        simp only [hbal, Option.isNone_none, if_true]
        exact hQ c b
      | some b0 =>
        simp only [hbal, Option.isNone_some, Bool.false_eq_true, if_false]
        split
        · exact hQ c b
        · split
          · exact hQ c b
          · rename_i hnl ex b2 heq
            rw [Balance.withdraw, if_neg hnl] at heq
            split at heq
            · cases heq
            · cases heq
              rename_i hnw
              simp only [Ledger.registerEntry, Ledger.setBalance, lookupA_setA]
              by_cases hcc : c = c0
              · rw [if_pos hcc, hbal]
                simp only [Option.map_some']
                intro hsb
                cases hsb
                refine ⟨(hQ c0 b0 hbal).1, ?_⟩
                show (0 : ℚ) ≤ b0.total - a
                have := le_of_not_lt hnw
                linarith
              · rw [if_neg hcc]
                exact hQ c b
  | Resolve c0 x =>
    intro c b
    rw [Ledger.processTransaction]
    simp only [Transaction.isDW, Transaction.isDeposit, Transaction.key,
      Transaction.client, Transaction.tx, Bool.false_and, Bool.not_false,
      Bool.true_and, if_false, Bool.false_eq_true]
    cases hbal : lookupA l.balance c0 with
    | none =>
      simp only [Option.isNone_none, if_true]
      exact hQ c b
    | some b0 =>
      simp only [hbal, Option.isNone_some, Bool.false_eq_true, if_false]
      split
      · exact hQ c b
      · split
        · exact hQ c b
        · split
          · exact hQ c b
          · split
            · exact hQ c b
            · split
              · exact hQ c b
              · rename_i b2 heq
                rw [Balance.removeHold, (hQ c0 b0 hbal).1] at heq
                simp [lookupA] at heq
  | ChargeBack c0 x =>
    intro c b
    rw [Ledger.processTransaction]
    simp only [Transaction.isDW, Transaction.isDeposit, Transaction.key,
      Transaction.client, Transaction.tx, Bool.false_and, Bool.not_false,
      Bool.true_and, if_false, Bool.false_eq_true]
    cases hbal : lookupA l.balance c0 with
    | none =>
      simp only [Option.isNone_none, if_true]
      exact hQ c b
    | some b0 =>
      simp only [hbal, Option.isNone_some, Bool.false_eq_true, if_false]
      split
      · exact hQ c b
      · split
        · exact hQ c b
        · split
          · exact hQ c b
          · split
            · exact hQ c b
            · split
              · exact hQ c b
              · rename_i b2 heq
                rw [Balance.applyHold, (hQ c0 b0 hbal).1] at heq
                simp [lookupA] at heq

theorem processAll_benign {ts : List Transaction} :
    ∀ l : Ledger,
    (∀ c b, lookupA l.balance c = some b → b.holds = [] ∧ 0 ≤ b.total) →
    (∀ t ∈ ts, benignTx t) →
    ∀ c b, lookupA (Ledger.processAll l ts).balance c = some b →
      b.holds = [] ∧ 0 ≤ b.total := by
  induction ts with
  | nil => intro l hQ _; exact hQ
  | cons t ts ih =>
    intro l hQ hts
    exact ih _ (benign_step hQ (hts t (List.mem_cons_self t ts)))
      (fun t' ht' => hts t' (List.mem_cons_of_mem _ ht'))

/-- C3 (amended): for every sequence of transactions processed from the
empty ledger, at every point and for every client, available + held ==
total; and if every amount in the sequence is non-negative and the
sequence contains no Dispute, then available ≥ 0 at every point.  (The
original claim's condition on withdrawals is not sufficient: disputing a
deposit can push available below zero, see the counterexample.) -/
theorem c3_available_identity_and_nonneg :
    ∀ (ts pre rest : List Transaction), ts = pre ++ rest →
    ∀ (c : Client) (b : Balance),
      lookupA (Ledger.processAll Ledger.new pre).balance c = some b →
      b.available + b.held = b.total ∧
      ((∀ t ∈ ts, benignTx t) → 0 ≤ b.available) := by
  intro ts pre rest hsplit c b hb
  constructor
  · show b.total - b.held + b.held = b.total
    ring
  · intro hts
    have hpre : ∀ t ∈ pre, benignTx t := by
      intro t htm
      exact hts t (hsplit ▸ List.mem_append_left _ htm)
    have hQ0 : ∀ c b, lookupA Ledger.new.balance c = some b →
        b.holds = [] ∧ 0 ≤ b.total := by
      intro c b h
      simp [Ledger.new, lookupA] at h
    obtain ⟨hholds, htot⟩ := processAll_benign Ledger.new hQ0 hpre c b hb
    show (0 : ℚ) ≤ b.total - b.held
    rw [show b.held = Balance.heldOf b.holds from rfl, hholds]
    show (0 : ℚ) ≤ b.total - 0
    linarith

/-- C3, counterexample to the claim as stated: deposit 100, withdraw 100
(the only accepted withdrawal's amount equals total at submission, so the
claim's hypothesis holds), then dispute the deposit: available = -100. -/
theorem c3_counterexample :
    (Ledger.processTransaction
        (Ledger.processAll Ledger.new [.Deposit 0 1 100])
        (.Withdrawal 0 2 100)).2 = none ∧
    (lookupA (Ledger.processAll Ledger.new [.Deposit 0 1 100]).balance 0).map
        Balance.total = some 100 ∧
    (lookupA (Ledger.processAll Ledger.new
        [.Deposit 0 1 100, .Withdrawal 0 2 100, .Dispute 0 1]).balance 0).map
        Balance.available = some (-100) ∧
    (-100 : ℚ) < 0 := by
  refine ⟨?_, ?_, ?_, by norm_num⟩ <;>
    norm_num [Ledger.processAll, Ledger.processTransaction, Ledger.new,
      Transaction.isDW, Transaction.isDeposit, Transaction.key,
      Transaction.client, Transaction.tx, lookupA, setA, Balance.new,
      Balance.deposit, Balance.withdraw, Balance.hold, Entry.dispute,
      Entry.new, Ledger.setBalance, Ledger.registerEntry, Balance.available,
      Balance.held, Balance.heldOf, Option.some_ne_none, Option.isNone_some]

theorem c3_witness :
    ∃ b, lookupA (Ledger.processAll Ledger.new
        [.Deposit 0 1 5]).balance 0 = some b ∧
      b.available + b.held = b.total ∧ 0 ≤ b.available := by
  have h := c3_available_identity_and_nonneg [.Deposit 0 1 5] [.Deposit 0 1 5] [] rfl 0
    ⟨0, 5, [], false⟩
    (by norm_num [Ledger.processAll, Ledger.processTransaction, Ledger.new,
      Transaction.isDW, Transaction.isDeposit, Transaction.key,
      Transaction.client, Transaction.tx, lookupA, setA, Balance.new,
      Balance.deposit, Ledger.setBalance, Ledger.registerEntry])
  refine ⟨⟨0, 5, [], false⟩,
    (by norm_num [Ledger.processAll, Ledger.processTransaction, Ledger.new,
      Transaction.isDW, Transaction.isDeposit, Transaction.key,
      Transaction.client, Transaction.tx, lookupA, setA, Balance.new,
      Balance.deposit, Ledger.setBalance, Ledger.registerEntry]),
    h.1, h.2 ?_⟩
  intro t htm
  simp only [List.mem_singleton] at htm
  subst htm
  show (0 : ℚ) ≤ 5
  norm_num
